import Mathlib

/-!
# Verification of the Local TTS Coordination Core

A shallow embedding, in Lean 4, of the coordination core of the
`local-tts-mcp` repository (`src/local_tts/`): the text chunker, the
in-process playback coordinator, the inference worker pipeline, the
cross-process ticket lock, the resource manager, and the `/generate`
request handler.  Each Python function is translated into an executable
Lean definition (strings become `List Char`, floats become `ℚ`,
fallible or effectful steps become explicit outcome parameters), and the
behavioural properties of the specification are proved or refuted
against those definitions.
-/

namespace LocalTTS

/- ───────────────────────── ResourceManager ─────────────────────────
   Embedding of `resource_manager.py`.  Floats are modelled by `ℚ`. -/

/-- `SystemStatus` dataclass from `resource_manager.py`. -/
structure SystemStatus where
  memory_percent : ℚ
  memory_available_mb : ℚ
  memory_total_mb : ℚ
  cpu_percent : ℚ
  is_critical : Bool
deriving DecidableEq

/-- `ResourceManager.check_allocation_feasibility(estimated_mb)`:
projects the memory percentage after allocating `estimated_mb` and
returns `false` when it would exceed `memory_threshold`. -/
def check_allocation_feasibility (memory_threshold : ℚ) (st : SystemStatus)
    (estimated_mb : ℚ) : Bool :=
  let current_used_mb := st.memory_total_mb * (st.memory_percent / 100)
  let new_used_mb := current_used_mb + estimated_mb
  let new_percent := new_used_mb / st.memory_total_mb * 100
  if new_percent > memory_threshold then false else true

/-- `ResourceManager.is_safe_to_run()`. -/
def is_safe_to_run (st : SystemStatus) : Bool := !st.is_critical

/- The `ResourceManager` singleton (`__new__` / `__init__`).  The
class-level `_instance` is modelled as an `Option RMObj` threaded
through each constructor call; `__init__` runs on every call but
returns early once `_initialized` is set. -/

/-- The mutable attributes of a `ResourceManager` object that the
singleton claim is about. -/
structure RMObj where
  memory_threshold : ℚ
  check_interval : ℚ
  initialized : Bool
deriving DecidableEq

/-- `ResourceManager.__new__`: return the existing `_instance` if set,
otherwise allocate a bare object (attributes not yet set) and store it. -/
def rmNew (inst : Option RMObj) : RMObj × Option RMObj :=
  match inst with
  | some i => (i, some i)
  | none =>
    let fresh : RMObj := ⟨0, 0, false⟩
    (fresh, some fresh)

/-- `ResourceManager.__init__`: early-return if `_initialized` is
already set, else store the thresholds and mark initialised. -/
def rmInit (self : RMObj) (memory_threshold_percent check_interval : ℚ) :
    RMObj :=
  if self.initialized then self
  else { memory_threshold := memory_threshold_percent,
         check_interval := check_interval,
         initialized := true }

/-- One call `ResourceManager(thr, interval)`: `__new__` then
`__init__` on the returned object; the class attribute `_instance`
aliases the (possibly mutated) object. -/
def rmConstruct (inst : Option RMObj)
    (memory_threshold_percent check_interval : ℚ) : RMObj × Option RMObj :=
  let (obj, inst1) := rmNew inst
  let obj2 := rmInit obj memory_threshold_percent check_interval
  (obj2, if inst1.isSome then some obj2 else inst1)

/-- A sequence of constructor calls, returning the list of constructed
objects and the final `_instance`. -/
def rmRunCalls (inst : Option RMObj) :
    List (ℚ × ℚ) → List RMObj × Option RMObj
  | [] => ([], inst)
  | (t, i) :: rest =>
    let (obj, inst1) := rmConstruct inst t i
    let (objs, inst2) := rmRunCalls inst1 rest
    (obj :: objs, inst2)

/- ─────────────────────── prepare_voice_file ───────────────────────
   Embedding of `service.py::prepare_voice_file`.  A readable WAV file
   is a sample rate plus a list of samples; the function either keeps
   the original path or writes a trimmed temporary file. -/

/-- The contents of a readable WAV file: sample rate and samples. -/
structure Wav (α : Type) where
  sr : ℕ
  samples : List α
deriving DecidableEq

/-- Result of `prepare_voice_file`: the original path unchanged, or a
fresh temporary file with the given contents. -/
inductive VoicePrep (α : Type) where
  | original
  | trimmed (w : Wav α)
deriving DecidableEq

/-- `service.py::prepare_voice_file` on a readable WAV file:
`duration = len(data)/sr`; if `duration > 10.0` write the first
`int(10.0 * sr)` samples to a temp file, else return the path. -/
def prepare_voice_file {α : Type} (w : Wav α) : VoicePrep α :=
  let duration : ℚ := (w.samples.length : ℚ) / (w.sr : ℚ)
  if duration > 10 then
    .trimmed ⟨w.sr, w.samples.take (⌊(10 : ℚ) * (w.sr : ℚ)⌋).toNat⟩
  else .original

/- ──────────────────── Text chunker (service.py) ──────────────────
   Embedding of `service.py::split_text`.  Python strings are lists of
   characters.  `str.split()` / `str.strip()` use the Python whitespace
   class; `re.split(r'(?<=[.!?])\s+', text)` splits on maximal
   whitespace runs preceded by a sentence terminator. -/

/-- Python whitespace (`str.split`, `str.strip`, regex `\s`). -/
def isPyWS (c : Char) : Bool :=
  c == ' ' || c == '\t' || c == '\n' || c == '\r' ||
    c == Char.ofNat 11 || c == Char.ofNat 12

/-- Worker for `str.split()`: accumulate the current word (reversed). -/
def splitAux (acc : List Char) : List Char → List (List Char)
  | [] => if acc = [] then [] else [acc.reverse]
  | c :: rest =>
    if isPyWS c then
      if acc = [] then splitAux [] rest
      else acc.reverse :: splitAux [] rest
    else splitAux (c :: acc) rest

/-- Python `text.split()`: maximal non-whitespace runs, no empties. -/
def pySplit (s : List Char) : List (List Char) := splitAux [] s

/-- Python `" ".join(words)`. -/
def joinSpace : List (List Char) → List Char
  | [] => []
  | [w] => w
  | w :: ws => w ++ ' ' :: joinSpace ws

/-- `" ".join(text.split())`: whitespace normalisation. -/
def normalize (s : List Char) : List Char := joinSpace (pySplit s)

/-- Python `s.strip()`. -/
def strip (s : List Char) : List Char :=
  ((s.dropWhile isPyWS).reverse.dropWhile isPyWS).reverse

/-- Sentence terminators of the chunker's regex class `[.!?]`. -/
def isTerm (c : Char) : Bool := c == '.' || c == '!' || c == '?'

/-- Worker for `re.split(r'(?<=[.!?])\s+', s)`: `prev` is the
character before the scan position and `acc` the current segment
(reversed).  A match starts at a whitespace character preceded by a
terminator and greedily consumes the whole whitespace run; `skip`
records that the scan is still inside such a consumed run. -/
def sentAux (skip : Bool) (prev : Char) (acc : List Char) :
    List Char → List (List Char)
  | [] => [acc.reverse]
  | c :: rest =>
    if skip then
      if isPyWS c then sentAux true ' ' acc rest
      else sentAux false c (c :: acc) rest
    else if isTerm prev && isPyWS c then
      acc.reverse :: sentAux true ' ' [] rest
    else sentAux false c (c :: acc) rest

/-- `re.split(r'(?<=[.!?])\s+', s)` (no character precedes index 0). -/
def sentenceSplit (s : List Char) : List (List Char) := sentAux false 'x' [] s

/-- Python `sentence.split(' ')`: split on every single space,
keeping empty pieces. -/
def splitChar : List Char → List (List Char)
  | [] => [[]]
  | c :: rest =>
    let r := splitChar rest
    if c = ' ' then [] :: r
    else
      match r with
      | w :: ws => (c :: w) :: ws
      | [] => [[c]]

/-- `[word[i:i+k] for i in range(0, len(word), k)]`: the slice starting
at `i * k` for each of the `⌈len/k⌉` indices produced by
`range(0, len(word), k)`. -/
def slices (w : List Char) (k : ℕ) : List (List Char) :=
  (List.range ((w.length + k - 1) / k)).map
    (fun i => (w.drop (i * k)).take k)

/-- Inner-loop body shared by the word and the over-long-word cases of
`split_text`: try to append `piece` to `temp_chunk`, else flush. -/
def subStep (maxLen : ℕ) (st : List (List Char) × List Char)
    (piece : List Char) : List (List Char) × List Char :=
  let (chunks, temp) := st
  if temp.length + piece.length + 1 ≤ maxLen then
    (chunks, temp ++ piece ++ [' '])
  else
    ((if temp = [] then chunks else chunks ++ [strip temp]), piece ++ [' '])

/-- Per-word body of `split_text`'s over-long-sentence loop. -/
def wordStep (maxLen : ℕ) (st : List (List Char) × List Char)
    (word : List Char) : List (List Char) × List Char :=
  if word.length > maxLen then (slices word maxLen).foldl (subStep maxLen) st
  else subStep maxLen st word

/-- Per-sentence body of `split_text`'s main loop. -/
def sentStep (maxLen : ℕ) (st : List (List Char) × List Char)
    (sentence : List Char) : List (List Char) × List Char :=
  let (chunks, cur) := st
  if strip sentence = [] then st
  else if cur.length + sentence.length + 1 ≤ maxLen then
    (chunks, cur ++ sentence ++ [' '])
  else
    let chunks1 := if cur = [] then chunks else chunks ++ [strip cur]
    if sentence.length > maxLen then
      (splitChar sentence).foldl (wordStep maxLen) (chunks1, [])
    else (chunks1, sentence ++ [' '])

/-- `service.py::split_text(text, max_length=200)`. -/
def split_text (text : List Char) (maxLen : ℕ := 200) : List (List Char) :=
  if text = [] then []
  else
    let t := normalize text
    let st := (sentenceSplit t).foldl (sentStep maxLen) ([], [])
    if st.2 = [] then st.1 else st.1 ++ [strip st.2]

/- ── Word-level view of the chunker, used to reason about it.
   A "word" is a token of `str.split()`; a chunker state is viewed as
   word lists; `sentGroups` is the word-level counterpart of the
   sentence regex split. -/

/-- A token produced by `str.split()`: non-empty and whitespace-free. -/
def IsWord (w : List Char) : Prop :=
  w ≠ [] ∧ ∀ c ∈ w, isPyWS c = false

/-- The character string held in `current_chunk` / `temp_chunk` when it
contains the words `tw`: their space-joined form plus the trailing
space, or the empty string. -/
def curOf (tw : List (List Char)) : List Char :=
  if tw = [] then [] else joinSpace tw ++ [' ']

/-- Word-level counterpart of `subStep`. -/
def subStepW (m : ℕ) (st : List (List (List Char)) × List (List Char))
    (w : List Char) : List (List (List Char)) × List (List Char) :=
  let (cs, tw) := st
  if (curOf tw).length + w.length + 1 ≤ m then (cs, tw ++ [w])
  else ((if tw = [] then cs else cs ++ [tw]), [w])

/-- Word-level counterpart of `sentStep` (on a non-blank sentence). -/
def sentStepW (m : ℕ) (st : List (List (List Char)) × List (List Char))
    (sw : List (List Char)) :
    List (List (List Char)) × List (List Char) :=
  let (cs, cw) := st
  if (curOf cw).length + (joinSpace sw).length + 1 ≤ m then (cs, cw ++ sw)
  else
    let cs1 := if cw = [] then cs else cs ++ [cw]
    if (joinSpace sw).length > m then sw.foldl (subStepW m) (cs1, [])
    else (cs1, sw)

/-- Bound invariant of the chunker state: every flushed chunk fits in
`m` characters, and the running chunk, which always carries a trailing
space, fits in `m + 1`. -/
def BState (m : ℕ) (st : List (List Char) × List Char) : Prop :=
  (∀ c ∈ st.1, c.length ≤ m) ∧
  (st.2 = [] ∨ ((∃ t, st.2 = t ++ [' ']) ∧ st.2.length ≤ m + 1))

/-- Word-level counterpart of the sentence split: group consecutive
words, breaking after each word that ends in a terminator. -/
def sentGroups : List (List Char) → List (List (List Char))
  | [] => []
  | [w] => [[w]]
  | w :: x :: ws =>
    if isTerm (w.getLastD 'x') then [w] :: sentGroups (x :: ws)
    else
      match sentGroups (x :: ws) with
      | [] => [[w]]
      | g :: gs => (w :: g) :: gs

/- ──────── In-process playback coordinator (service.py) ──────────── -/

/-- `service.py::PlaybackCoordinator` state. -/
structure PlaybackCoordinator where
  current_ticket : ℕ
  next_ticket : ℕ
deriving DecidableEq

/-- A fresh daemon's coordinator (`__init__`). -/
def PlaybackCoordinator.fresh : PlaybackCoordinator := ⟨0, 0⟩

/-- `get_ticket`: hand out `next_ticket` and increment it. -/
def PlaybackCoordinator.get_ticket (c : PlaybackCoordinator) :
    ℕ × PlaybackCoordinator :=
  (c.next_ticket, ⟨c.current_ticket, c.next_ticket + 1⟩)

/-- `finish_turn`: advance `current_ticket` and wake waiters. -/
def PlaybackCoordinator.finish_turn (c : PlaybackCoordinator) :
    PlaybackCoordinator :=
  ⟨c.current_ticket + 1, c.next_ticket⟩

/- ─────────────── `/generate` handler (service.py) ────────────────
   `TTSRequestHandler.handle_generate`.  The request body is either
   unparsable (`none`) or a parsed JSON value; Python truthiness of the
   `text` field decides validity; a valid JSON body that is not an
   object makes `data.get("text")` raise `AttributeError`, which the
   generic `except Exception` turns into a 500. -/

/-- Parsed JSON values. -/
inductive Json where
  | null
  | bool (b : Bool)
  | num (n : ℤ)
  | str (s : List Char)
  | arr (elems : List Json)
  | obj (fields : List (List Char × Json))

instance : Inhabited Json := ⟨Json.null⟩

/-- Python falsiness of a JSON-decoded value
(`None`, `False`, `0`, `""`, `[]`, `{}`). -/
def jfalsy : Json → Bool
  | .null => true
  | .bool b => !b
  | .num n => n == 0
  | .str s => s.isEmpty
  | .arr l => l.isEmpty
  | .obj f => f.isEmpty

/-- `dict.get(key)` on a decoded JSON object (later duplicate keys
override earlier ones, as in `json.loads`). -/
def jget : List (List Char × Json) → List Char → Option Json
  | [], _ => none
  | (k, v) :: rest, key =>
    match jget rest key with
    | some r => some r
    | none => if k = key then some v else none

/-- Responses of the `/generate` handler. -/
inductive GenResponse where
  | clientError (code : ℕ)
  | serverError
  | queued (ticket : ℕ)
deriving DecidableEq

/-- The JSON key `"text"`. -/
def textKey : List Char := ['t', 'e', 'x', 't']

/-- `TTSRequestHandler.handle_generate`: reject a zero content-length,
a JSON decode error, or a falsy/missing `text`; enqueue otherwise.
`body = none` models a `json.JSONDecodeError`. -/
def handle_generate (contentLength : ℕ) (body : Option Json)
    (coord : PlaybackCoordinator) : GenResponse × PlaybackCoordinator :=
  if contentLength = 0 then (.clientError 400, coord)
  else
    match body with
    | none => (.clientError 400, coord)
    | some j =>
      match j with
      | .obj fields =>
        match jget fields textKey with
        | none => (.clientError 400, coord)
        | some v =>
          if jfalsy v then (.clientError 400, coord)
          else
            let (t, coord2) := coord.get_ticket
            (.queued t, coord2)
      | _ => (.serverError, coord)

/- ─────────────── Inference worker (service.py) ───────────────────
   `worker_loop` processes one dequeued task at a time.  Outcomes of
   the effectful calls (resource check, model load, voice resolution,
   per-chunk generation, WAV save, playback subprocess) are supplied by
   a `TaskEnv`; the body is translated into the list of observable
   events it performs, in order.  `worker_loop` never touches
   `SystemTTSCoordinator` (the import in `service.py` is unused), so no
   lock events appear anywhere in the translation. -/

/-- Observable events of one `worker_loop` iteration (including the
`play_audio` thread it spawns). -/
inductive WEvent where
  | lockEnter
  | lockExit
  | backpressureSleep
  | loadModel (ok : Bool)
  | resolveVoice (ok : Bool)
  | genChunk (ok : Bool)
  | saveWav (ok : Bool)
  | waitTurn (t : ℕ)
  | playback (ok : Bool)
  | finishTurn
deriving DecidableEq

/-- Outcomes of the effectful calls made while processing one task. -/
structure TaskEnv where
  allocOk : Bool
  loadOk : Bool
  voicePathGiven : Bool
  voicePathFails : Bool
  namedVoiceFails : Bool
  genOk : ℕ → Bool
  saveOk : Bool
  playOk : Bool

/-- `service.py::play_audio`: wait for the ticket's turn, run the
platform player, and in the `finally` call `finish_turn`. -/
def playAudioEvents (playOk : Bool) (ticket : ℕ) : List WEvent :=
  [.waitTurn ticket, .playback playOk, .finishTurn]

/-- Generation onward (`# Generate` to the end of one `worker_loop`
iteration), after the model is available and voice resolution did not
raise. -/
def generatePhase (env : TaskEnv) (text : List Char) (ticket : ℕ)
    (pre : List WEvent) : List WEvent :=
  let active := (split_text text 200).filter (fun c => !(strip c).isEmpty)
  let genEvs := (List.range active.length).map
    (fun i => WEvent.genChunk (env.genOk i))
  let segs := ((List.range active.length).filter
    (fun i => env.genOk i)).length
  let pre2 := pre ++ genEvs
  if segs = 0 then pre2 ++ [.finishTurn]
  else if env.saveOk = false then pre2 ++ [.saveWav false, .finishTurn]
  else pre2 ++ [.saveWav true] ++ playAudioEvents env.playOk ticket

/-- One `worker_loop` iteration on a dequeued task `(text, …, ticket)`:
resource check, `load_model()` (`if not model: continue` — with no
`finish_turn`), voice resolution (the caught `voice_path` branch, or
the uncaught catalog branch whose exception falls through to the outer
`except` of the loop), then generation, save and playback. -/
def processTask (env : TaskEnv) (text : List Char) (ticket : ℕ) :
    List WEvent :=
  let pre0 := if env.allocOk then [] else [WEvent.backpressureSleep]
  let pre1 := pre0 ++ [WEvent.loadModel env.loadOk]
  if env.loadOk = false then pre1
  else if env.voicePathGiven then
    generatePhase env text ticket (pre1 ++ [.resolveVoice (!env.voicePathFails)])
  else if env.namedVoiceFails then pre1 ++ [.resolveVoice false]
  else generatePhase env text ticket (pre1 ++ [.resolveVoice true])

/- ─────────────── Cross-process tickets (system_lock.py) ───────────
   `SystemTTSCoordinator._create_ticket` builds the file name
   `f"{time.time_ns():020d}-{self.pid}.ticket"`; `_sorted_tickets`
   sorts the names of the queue directory with Python `sorted`
   (code-point lexicographic order on strings). -/

/-- The decimal digit characters (`'0'` + d). -/
def digitChar : ℕ → Char
  | 0 => '0' | 1 => '1' | 2 => '2' | 3 => '3' | 4 => '4'
  | 5 => '5' | 6 => '6' | 7 => '7' | 8 => '8' | _ => '9'

/-- Python `str(n)` for a natural number: its decimal digits,
most-significant first. -/
def natDecimal (n : ℕ) : List Char :=
  if n = 0 then ['0'] else ((Nat.digits 10 n).map digitChar).reverse

/-- Python `f"{n:0{width}d}"`: the decimal digits left-padded with
`'0'` to `width` characters. -/
def padded (width n : ℕ) : List Char :=
  List.replicate (width - (natDecimal n).length) '0' ++ natDecimal n

/-- The ticket file name `f"{ts:020d}-{pid}.ticket"` built by
`SystemTTSCoordinator._create_ticket`. -/
def ticketName (ts pid : ℕ) : List Char :=
  padded 20 ts ++ ('-' :: (natDecimal pid ++ ['.', 't', 'i', 'c', 'k', 'e', 't']))

/-- Python string `<`: code-point lexicographic order, a strict
proper-prefix being smaller. -/
def strLt : List Char → List Char → Bool
  | _, [] => false
  | [], _ :: _ => true
  | a :: as, b :: bs =>
    if a < b then true else if b < a then false else strLt as bs

/-- Python `sorted` on file names: stable ascending sort by `<`. -/
def pySorted (names : List (List Char)) : List (List Char) :=
  List.insertionSort (fun a b => strLt b a = false) names

/-- `SystemTTSCoordinator._sorted_tickets`: the `.ticket` file names of
the queue directory, sorted by name. -/
def sorted_tickets (names : List (List Char)) : List (List Char) :=
  pySorted (names.filter
    (fun n => List.isSuffixOf ['.', 't', 'i', 'c', 'k', 'e', 't'] n))

/-- The numeric value of a big-endian string of decimal digits. -/
def digitsVal : List Char → ℕ
  | [] => 0
  | c :: rest => (c.toNat - 48) * 10 ^ rest.length + digitsVal rest

/-- A string of decimal digit characters. -/
def IsDigitStr (ds : List Char) : Prop :=
  ∀ c ∈ ds, 48 ≤ c.toNat ∧ c.toNat ≤ 57

/- ──────── Cross-process lock scope (system_lock.py) ──────────────
   `SystemTTSCoordinator.inference_lock(timeout)`.  Each iteration of
   the wait loop observes the queue directory (a list of file names)
   and the elapsed time at the timeout check; the caller's body either
   returns or raises. -/

/-- One observation of the wait loop: the queue directory listing
after `_cleanup_stale_tickets`, and `time.time() - start` at the
timeout check. -/
structure PollObs where
  queueNames : List (List Char)
  elapsed : ℚ

/-- Outcome of the caller's body (the `yield`ed block). -/
inductive BodyOutcome where
  | ok
  | exn
deriving DecidableEq

/-- What happened on one run of the `inference_lock` scope. -/
structure LockRun where
  acquired : Bool
  flockReleased : Bool
  ticketRemoved : Bool
  timedOut : Bool
  bodyRan : Bool
  raised : Bool
deriving DecidableEq

/-- The `tickets[0] == ticket_name` / empty-queue break test of the
wait loop, using `_sorted_tickets`. -/
def isFirstObs (ourName : List Char) (names : List (List Char)) : Bool :=
  match sorted_tickets names with
  | [] => true
  | n :: _ => n = ourName

/-- Phase 1 of `inference_lock`: poll until our ticket is first
(`some true`), raise `TimeoutError` when the deadline passes first
(`some false`), or run out of supplied observations (`none`, modelling
an unfinished wait). -/
def waitPhase (ourName : List Char) (timeout : ℚ) :
    List PollObs → Option Bool
  | [] => none
  | o :: rest =>
    if isFirstObs ourName o.queueNames then some true
    else if o.elapsed > timeout then some false
    else waitPhase ourName timeout rest

/-- `SystemTTSCoordinator.inference_lock(timeout)`: create a ticket,
wait to be first, acquire the flock, yield, and in the `finally`
release the flock (only if acquired) and remove the ticket. -/
def inference_lock (ourName : List Char) (timeout : ℚ)
    (polls : List PollObs) (body : BodyOutcome) : Option LockRun :=
  match waitPhase ourName timeout polls with
  | none => none
  | some false =>
    some { acquired := false, flockReleased := false, ticketRemoved := true,
           timedOut := true, bodyRan := false, raised := true }
  | some true =>
    some { acquired := true, flockReleased := true, ticketRemoved := true,
           timedOut := false, bodyRan := true,
           raised := body == BodyOutcome.exn }

end LocalTTS

namespace LocalTTS

/- ──────────────────────────── Theorems ──────────────────────────── -/

/-- Helper: with a positive total, the projected percentage after
allocating `e` is `percent + 100 * e / total`. -/
theorem check_alloc_spec (thr : ℚ) (st : SystemStatus) (e : ℚ)
    (htot : 0 < st.memory_total_mb) :
    check_allocation_feasibility thr st e = false ↔
      st.memory_percent + 100 * e / st.memory_total_mb > thr := by
  have hne : st.memory_total_mb ≠ 0 := ne_of_gt htot
  rw [show check_allocation_feasibility thr st e =
        (if (st.memory_total_mb * (st.memory_percent / 100) + e) /
              st.memory_total_mb * 100 > thr then false else true) from rfl]
  have harith :
      (st.memory_total_mb * (st.memory_percent / 100) + e) /
          st.memory_total_mb * 100 =
        st.memory_percent + 100 * e / st.memory_total_mb := by
    field_simp
    ring
  rw [harith]
  by_cases h : st.memory_percent + 100 * e / st.memory_total_mb > thr
  · simp [h]
  · simp [h]

/-- C1: the worker pipeline violates the one-`finish_turn`-per-ticket
invariant on the model-load-failure path: when `load_model` leaves no
model, `worker_loop` executes `if not model: continue` and the
iteration for the dequeued ticket performs zero `finish_turn` calls
(the claim requires exactly one on every terminating path). -/
theorem C1_load_failure_skips_finish_turn :
    ((processTask
        ⟨true, false, false, false, false, fun _ => true, true, true⟩
        ['h', 'i'] 0).count WEvent.finishTurn) = 0 ∧
    WEvent.loadModel false ∈
      processTask ⟨true, false, false, false, false, fun _ => true, true, true⟩
        ['h', 'i'] 0 := by
  constructor
  · rfl
  · decide

/-- C2: `worker_loop` performs an entire request — model load,
generation, save and playback — without ever entering (or exiting) a
`SystemTTSCoordinator.inference_lock` scope: no lock event occurs in
any iteration's trace, for any outcome environment, while a successful
iteration does load the model and play audio.  (`service.py` imports
`SystemTTSCoordinator` but never uses it.) -/
theorem C2_worker_never_inside_lock :
    (∀ env text ticket, WEvent.lockEnter ∉ processTask env text ticket ∧
        WEvent.lockExit ∉ processTask env text ticket) ∧
    WEvent.loadModel true ∈
      processTask ⟨true, true, false, false, false, fun _ => true, true, true⟩
        ['h', 'i'] 0 ∧
    WEvent.playback true ∈
      processTask ⟨true, true, false, false, false, fun _ => true, true, true⟩
        ['h', 'i'] 0 := by
  refine ⟨?_, by decide, by decide⟩
  have hgen : ∀ env text tk pre,
      WEvent.lockEnter ∉ pre → WEvent.lockExit ∉ pre →
      WEvent.lockEnter ∉ generatePhase env text tk pre ∧
        WEvent.lockExit ∉ generatePhase env text tk pre := by
    intro env text tk pre h1 h2
    simp only [generatePhase, playAudioEvents]
    split_ifs <;> constructor <;>
      simp_all [List.mem_append, List.mem_map]
  intro env text ticket
  unfold processTask
  constructor <;>
    · split_ifs <;>
        first
          | exact (hgen _ _ _ _ (by simp) (by simp)).1
          | exact (hgen _ _ _ _ (by simp) (by simp)).2
          | simp [List.mem_append]

/-- C3: on every terminating run of `inference_lock` — timeout while
waiting, exception from the caller's body, or normal completion — the
ticket file is removed; the advisory flock is released whenever it was
acquired; and if the deadline passes while our ticket is not first, the
scope raises `TimeoutError` without ever acquiring the lock. -/
theorem C3_inference_lock_cleanup (ourName : List Char) (timeout : ℚ)
    (polls : List PollObs) (body : BodyOutcome) (run : LockRun)
    (h : inference_lock ourName timeout polls body = some run) :
    run.ticketRemoved = true ∧
    (run.acquired = true → run.flockReleased = true) ∧
    (waitPhase ourName timeout polls = some false →
      run.timedOut = true ∧ run.acquired = false ∧ run.raised = true) := by
  unfold inference_lock at h
  cases hwp : waitPhase ourName timeout polls with
  | none => rw [hwp] at h; cases h
  | some b =>
    rw [hwp] at h
    cases b
    · cases h
      refine ⟨rfl, ?_, ?_⟩
      · intro hc; simp at hc
      · intro _; exact ⟨rfl, rfl, rfl⟩
    · cases h
      refine ⟨rfl, ?_, ?_⟩
      · intro _; rfl
      · intro hf; simp at hf

/-- C3 witness: a run that is first immediately, with a clean body. -/
theorem C3_inference_lock_cleanup_witness :
    inference_lock [] 1 [⟨[], 0⟩] BodyOutcome.ok =
      some ⟨true, true, true, false, true, false⟩ ∧
    (⟨true, true, true, false, true, false⟩ : LockRun).ticketRemoved
      = true :=
  ⟨rfl, (C3_inference_lock_cleanup [] 1 [⟨[], 0⟩] BodyOutcome.ok
    ⟨true, true, true, false, true, false⟩ rfl).1⟩

/-- C8, counterexample: a request with a non-empty body that parses to
the JSON number `1` (valid JSON, not an object, so no `text` field)
makes `data.get("text")` raise `AttributeError`, and the handler
answers 500 — while the claim requires 400 for a missing `text` field
(and 200 otherwise). -/
theorem C8_counterexample :
    handle_generate 1 (some (Json.num 1)) PlaybackCoordinator.fresh =
      (GenResponse.serverError, PlaybackCoordinator.fresh) ∧
    GenResponse.serverError ≠ GenResponse.clientError 400 := by
  exact ⟨rfl, by simp⟩

/-- C8 (amended): the handler answers 400 exactly when the body is
empty, unparsable, or a JSON object whose `text` field is missing or
Python-falsy; it answers 500 on any valid non-object JSON body; and on
an object with a truthy `text` it enqueues and answers
`{"status": "queued", "ticket": t}` where `t` is the coordinator's next
in-process ticket — which is 0 on a fresh daemon. -/
theorem C8_amended (len : ℕ) (body : Option Json)
    (coord : PlaybackCoordinator) :
    ((handle_generate len body coord).1 = .clientError 400 ↔
      (len = 0 ∨ body = none ∨
        ∃ fields, body = some (.obj fields) ∧
          (jget fields textKey = none ∨
            ∃ v, jget fields textKey = some v ∧ jfalsy v = true))) ∧
    (∀ fields v, len ≠ 0 → body = some (.obj fields) →
      jget fields textKey = some v → jfalsy v = false →
      handle_generate len body coord =
        (.queued coord.next_ticket,
          ⟨coord.current_ticket, coord.next_ticket + 1⟩)) ∧
    (∀ j, len ≠ 0 → body = some j → (∀ fields, j ≠ .obj fields) →
      (handle_generate len body coord).1 = .serverError) ∧
    PlaybackCoordinator.fresh.next_ticket = 0 := by
  refine ⟨?_, ?_, ?_, rfl⟩
  · by_cases hlen : len = 0
    · simp [handle_generate, hlen]
    · cases body with
      | none => simp [handle_generate, hlen]
      | some j =>
        cases j with
        | obj fields =>
          cases hget : jget fields textKey with
          | none => simp [handle_generate, hlen, hget]
          | some v =>
            by_cases hf : jfalsy v = true
            · simp [handle_generate, hlen, hget, hf]
            · simp only [Bool.not_eq_true] at hf
              simp [handle_generate, hlen, hget, hf,
                PlaybackCoordinator.get_ticket]
        | null => simp [handle_generate, hlen]
        | bool b => simp [handle_generate, hlen]
        | num n => simp [handle_generate, hlen]
        | str s => simp [handle_generate, hlen]
        | arr l => simp [handle_generate, hlen]
  · intro fields v hlen hbody hget hf
    subst hbody
    simp [handle_generate, hlen, hget, hf, PlaybackCoordinator.get_ticket]
  · intro j hlen hbody hnotobj
    subst hbody
    cases j with
    | obj fields => exact absurd rfl (hnotobj fields)
    | null => simp [handle_generate, hlen]
    | bool b => simp [handle_generate, hlen]
    | num n => simp [handle_generate, hlen]
    | str s => simp [handle_generate, hlen]
    | arr l => simp [handle_generate, hlen]

/-- C8 witness: a fresh daemon queues `{"text": "hi"}` as ticket 0. -/
theorem C8_amended_witness :
    handle_generate 5 (some (.obj [(textKey, Json.str ['h', 'i'])]))
        PlaybackCoordinator.fresh =
      (.queued PlaybackCoordinator.fresh.next_ticket,
        ⟨PlaybackCoordinator.fresh.current_ticket,
          PlaybackCoordinator.fresh.next_ticket + 1⟩) :=
  (C8_amended 5 (some (.obj [(textKey, Json.str ['h', 'i'])]))
      PlaybackCoordinator.fresh).2.1
    [(textKey, Json.str ['h', 'i'])] (Json.str ['h', 'i'])
    (by decide) rfl rfl rfl

/-- C6, counterexample: the spec says
`can_allocate(total * (1 - threshold/100) + 1)` is always `false`, but
at a sampled status with 0% memory used, 1000 MB total and threshold
85, the projected usage is 15.1% and the allocation is accepted. -/
theorem C6_counterexample :
    check_allocation_feasibility 85
      ⟨0, 1000, 1000, 0, false⟩ (1000 * (1 - 85 / 100) + 1) = true := by
  norm_num [check_allocation_feasibility]

/-- C6 (amended): for every sampled status with positive total memory,
`check_allocation_feasibility 0` returns `true` whenever
`memory_percent < threshold`; and
`check_allocation_feasibility (total * (1 - threshold/100) + 1)`
returns `false` exactly when
`memory_percent + 100 + 100/total > 2 * threshold` (in particular
whenever `memory_percent ≥ threshold` and `threshold ≤ 100`), not
always. -/
theorem C6_amended (thr : ℚ) (st : SystemStatus)
    (htot : 0 < st.memory_total_mb) :
    (st.memory_percent < thr →
      check_allocation_feasibility thr st 0 = true) ∧
    (check_allocation_feasibility thr st
        (st.memory_total_mb * (1 - thr / 100) + 1) = false ↔
      st.memory_percent + 100 + 100 / st.memory_total_mb > 2 * thr) := by
  have hne : st.memory_total_mb ≠ 0 := ne_of_gt htot
  constructor
  · intro hlt
    rcases Bool.eq_false_or_eq_true
        (check_allocation_feasibility thr st 0) with ht | hf
    · exact ht
    · exfalso
      rw [check_alloc_spec thr st 0 htot] at hf
      simp only [mul_zero, zero_div] at hf
      linarith
  · rw [check_alloc_spec thr st _ htot]
    have harith :
        100 * (st.memory_total_mb * (1 - thr / 100) + 1) /
            st.memory_total_mb =
          100 - thr + 100 / st.memory_total_mb := by
      field_simp
      ring
    rw [harith]
    constructor <;> intro h <;> linarith

/-- C6 witness: instantiating `C6_amended` at a concrete sampled status
(50% of 1000 MB used, threshold 85). -/
theorem C6_amended_witness :
    (0 : ℚ) < 1000 ∧ (50 : ℚ) < 85 ∧
      check_allocation_feasibility 85 ⟨50, 500, 1000, 0, false⟩ 0 = true :=
  ⟨by norm_num, by norm_num,
    (C6_amended 85 ⟨50, 500, 1000, 0, false⟩ (by norm_num)).1 (by norm_num)⟩

/-- C9: for every readable WAV voice file (positive sample rate),
`prepare_voice_file` returns the original path when the duration
`len/sr` is at most 10 seconds, and otherwise returns a fresh temporary
file holding exactly the first `int(10.0 * sr) = 10 * sr` samples at
the same sample rate. -/
theorem C9_prepare_voice_file (α : Type) (w : Wav α) (hsr : 0 < w.sr) :
    (w.samples.length ≤ 10 * w.sr → prepare_voice_file w = .original) ∧
    (10 * w.sr < w.samples.length →
      prepare_voice_file w =
        .trimmed ⟨w.sr, w.samples.take (10 * w.sr)⟩) := by
  have hsrQ : (0 : ℚ) < (w.sr : ℚ) := by exact_mod_cast hsr
  have hcond : ((w.samples.length : ℚ) / (w.sr : ℚ) > 10) ↔
      10 * w.sr < w.samples.length := by
    rw [gt_iff_lt, lt_div_iff₀ hsrQ]
    constructor
    · intro h; exact_mod_cast h
    · intro h; exact_mod_cast h
  have hfloor : (⌊(10 : ℚ) * (w.sr : ℚ)⌋).toNat = 10 * w.sr := by
    have hc : (10 : ℚ) * (w.sr : ℚ) = ((10 * w.sr : ℕ) : ℚ) := by
      push_cast; ring
    rw [hc, Int.floor_natCast]
    omega
  simp only [prepare_voice_file]
  constructor
  · intro hle
    rw [if_neg]
    rw [hcond]; omega
  · intro hlt
    rw [if_pos, hfloor]
    rw [hcond]; omega

/-- C9 witness: a WAV of 11 samples at 1 Hz (11 s) is trimmed to its
first 10 samples. -/
theorem C9_prepare_voice_file_witness :
    0 < 1 ∧ 10 * 1 < (List.replicate 11 (0 : ℕ)).length ∧
      prepare_voice_file ⟨1, List.replicate 11 (0 : ℕ)⟩ =
        .trimmed ⟨1, (List.replicate 11 (0 : ℕ)).take (10 * 1)⟩ :=
  ⟨by decide, by decide,
    (C9_prepare_voice_file ℕ ⟨1, List.replicate 11 0⟩ (by decide)).2
      (by decide)⟩

/-- Once the singleton is initialised, every further constructor call
returns the same object and leaves the class-level `_instance`
unchanged, whatever arguments are passed. -/
theorem rmRunCalls_initialized (s : RMObj) (h : s.initialized = true) :
    ∀ calls : List (ℚ × ℚ),
      rmRunCalls (some s) calls = (List.replicate calls.length s, some s)
  | [] => by simp [rmRunCalls]
  | (t, i) :: rest => by
    have ih := rmRunCalls_initialized s h rest
    simp [rmRunCalls, rmConstruct, rmNew, rmInit, h, ih,
      List.replicate_succ]

/-- Value of a digit string with one more digit appended. -/
theorem digitsVal_append_digit (xs : List Char) (c : Char) :
    digitsVal (xs ++ [c]) = 10 * digitsVal xs + (c.toNat - 48) := by
  induction xs with
  | nil => simp [digitsVal]
  | cons x xs ih =>
    have hlen : (xs ++ [c]).length = xs.length + 1 := by simp
    simp only [List.cons_append, digitsVal, List.append_eq, ih, hlen]
    ring

/-- The decimal digit characters have the expected code points. -/
theorem digitChar_toNat (d : ℕ) (hd : d < 10) :
    (digitChar d).toNat = 48 + d := by
  interval_cases d <;> rfl

/-- `natDecimal` inverts to the number it prints. -/
theorem digitsVal_natDecimal (n : ℕ) : digitsVal (natDecimal n) = n := by
  by_cases h : n = 0
  · subst h; rfl
  · have key : ∀ L : List ℕ, (∀ d ∈ L, d < 10) →
        digitsVal ((L.map digitChar).reverse) = Nat.ofDigits 10 L := by
      intro L
      induction L with
      | nil => intro _; rfl
      | cons d L ih =>
        intro hall
        have hd : d < 10 := hall d (by simp)
        simp only [List.map_cons, List.reverse_cons, digitsVal_append_digit,
          ih (fun x hx => hall x (by simp [hx])), Nat.ofDigits_cons,
          digitChar_toNat d hd]
        omega
    rw [natDecimal, if_neg h,
      key _ (fun d hd => Nat.digits_lt_base (by norm_num) hd),
      Nat.ofDigits_digits]

/-- `natDecimal` produces only digit characters. -/
theorem isDigitStr_natDecimal (n : ℕ) : IsDigitStr (natDecimal n) := by
  intro c hc
  by_cases h : n = 0
  · subst h
    have h0 : natDecimal 0 = ['0'] := rfl
    rw [h0, List.mem_singleton] at hc
    subst hc; decide
  · rw [natDecimal, if_neg h, List.mem_reverse, List.mem_map] at hc
    obtain ⟨d, hd, rfl⟩ := hc
    have : d < 10 := Nat.digits_lt_base (by norm_num) hd
    rw [digitChar_toNat d this]
    omega

/-- Leading `'0'` padding does not change the value. -/
theorem digitsVal_pad (k : ℕ) (ds : List Char) :
    digitsVal (List.replicate k '0' ++ ds) = digitsVal ds := by
  induction k with
  | zero => rfl
  | succ k ih =>
    simp only [List.replicate_succ, List.cons_append, digitsVal,
      List.append_eq]
    rw [ih]
    have h0 : ('0'.toNat - 48) = 0 := rfl
    rw [h0]
    norm_num

/-- The zero-padded decimal rendering keeps the value. -/
theorem digitsVal_padded (w n : ℕ) : digitsVal (padded w n) = n := by
  rw [padded, digitsVal_pad, digitsVal_natDecimal]

/-- Padded renderings consist of digit characters. -/
theorem isDigitStr_padded (w n : ℕ) : IsDigitStr (padded w n) := by
  intro c hc
  rw [padded, List.mem_append] at hc
  rcases hc with hc | hc
  · rw [List.mem_replicate] at hc
    rw [hc.2]; decide
  · exact isDigitStr_natDecimal n c hc

/-- A number below `10 ^ w` prints in at most `w` digits (for `w ≥ 1`). -/
theorem natDecimal_length_le (w n : ℕ) (hw : 1 ≤ w) (hn : n < 10 ^ w) :
    (natDecimal n).length ≤ w := by
  by_cases h : n = 0
  · subst h; simpa [natDecimal] using hw
  · rw [natDecimal, if_neg h, List.length_reverse, List.length_map]
    by_contra hgt
    push_neg at hgt
    have h1 : 10 ^ (Nat.digits 10 n).length ≤ 10 * n :=
      Nat.base_pow_length_digits_le 10 n (by norm_num) h
    have h2 : 10 ^ (w + 1) ≤ 10 ^ (Nat.digits 10 n).length :=
      Nat.pow_le_pow_right (by norm_num) hgt
    have h3 : 10 * 10 ^ w ≤ 10 * n := by
      calc 10 * 10 ^ w = 10 ^ (w + 1) := by ring
        _ ≤ 10 ^ (Nat.digits 10 n).length := h2
        _ ≤ 10 * n := h1
    omega

/-- The padded rendering of a number below `10 ^ w` has exactly `w`
characters. -/
theorem padded_length (w n : ℕ) (hw : 1 ≤ w) (hn : n < 10 ^ w) :
    (padded w n).length = w := by
  have := natDecimal_length_le w n hw hn
  simp only [padded, List.length_append, List.length_replicate]
  omega

/-- A digit string of length `k` has value below `10 ^ k`. -/
theorem digitsVal_lt (ds : List Char) (hds : IsDigitStr ds) :
    digitsVal ds < 10 ^ ds.length := by
  induction ds with
  | nil => simp [digitsVal]
  | cons c rest ih =>
    have hc := hds c (by simp)
    have hrest : IsDigitStr rest := fun x hx => hds x (by simp [hx])
    have h1 : digitsVal rest < 10 ^ rest.length := ih hrest
    have h2 : c.toNat - 48 ≤ 9 := by omega
    have h3 : (c.toNat - 48) * 10 ^ rest.length ≤ 9 * 10 ^ rest.length :=
      Nat.mul_le_mul_right _ h2
    simp only [digitsVal, List.length_cons, pow_succ]
    calc (c.toNat - 48) * 10 ^ rest.length + digitsVal rest
        < (c.toNat - 48) * 10 ^ rest.length + 10 ^ rest.length := by omega
      _ ≤ 9 * 10 ^ rest.length + 10 ^ rest.length := by omega
      _ = 10 ^ rest.length * 10 := by ring
      _ ≤ 10 ^ rest.length * 10 := le_rfl

/-- Characters compare by code point. -/
theorem char_lt_iff_toNat (a b : Char) : a < b ↔ a.toNat < b.toNat :=
  Char.lt_iff_val_lt_val

/-- Characters with the same code point are equal. -/
theorem char_eq_of_toNat_eq (a b : Char) (h : a.toNat = b.toNat) : a = b := by
  apply Char.eq_of_val_eq
  have hv : a.val.toNat = b.val.toNat := h
  exact UInt32.toNat.inj hv

/-- On equal-length digit strings, numeric order implies Python string
order. -/
theorem strLt_of_digitsVal_lt :
    ∀ a b : List Char, IsDigitStr a → IsDigitStr b → a.length = b.length →
      digitsVal a < digitsVal b → strLt a b = true := by
  intro a
  induction a with
  | nil =>
    intro b _ _ hlen hval
    cases b with
    | nil => simp [digitsVal] at hval
    | cons y bs => simp at hlen
  | cons x as ih =>
    intro b hda hdb hlen hval
    cases b with
    | nil => simp at hlen
    | cons y bs =>
      have hx := hda x (by simp)
      have hy := hdb y (by simp)
      have hlen' : as.length = bs.length := by simpa using hlen
      have hva : digitsVal as < 10 ^ as.length :=
        digitsVal_lt as (fun c hc => hda c (by simp [hc]))
      have hvb : digitsVal bs < 10 ^ bs.length :=
        digitsVal_lt bs (fun c hc => hdb c (by simp [hc]))
      rcases Nat.lt_trichotomy x.toNat y.toNat with hxy | hxy | hxy
      · have : x < y := (char_lt_iff_toNat x y).mpr hxy
        simp [strLt, this]
      · have hchar : x = y := char_eq_of_toNat_eq x y hxy
        subst hchar
        have hnlt : ¬ x < x := lt_irrefl x
        simp only [strLt, if_neg hnlt]
        apply ih bs (fun c hc => hda c (by simp [hc]))
          (fun c hc => hdb c (by simp [hc])) hlen'
        simp only [digitsVal, hlen'] at hval
        omega
      · exfalso
        simp only [digitsVal] at hval
        have hge : (y.toNat - 48) + 1 ≤ x.toNat - 48 := by omega
        have h1 : ((y.toNat - 48) + 1) * 10 ^ as.length ≤
            (x.toNat - 48) * 10 ^ as.length :=
          Nat.mul_le_mul_right _ hge
        have h2 : (y.toNat - 48) * 10 ^ bs.length + 10 ^ bs.length ≤
            (x.toNat - 48) * 10 ^ as.length := by
          rw [← hlen'] at *
          calc (y.toNat - 48) * 10 ^ as.length + 10 ^ as.length
              = ((y.toNat - 48) + 1) * 10 ^ as.length := by ring
            _ ≤ (x.toNat - 48) * 10 ^ as.length := h1
        rw [hlen'] at hva
        omega

/-- String order on equal-length strings is preserved by appending
arbitrary suffixes. -/
theorem strLt_append :
    ∀ a b u v : List Char, a.length = b.length → strLt a b = true →
      strLt (a ++ u) (b ++ v) = true := by
  intro a
  induction a with
  | nil =>
    intro b u v hlen h
    cases b with
    | nil => simp [strLt] at h
    | cons y bs => simp at hlen
  | cons x as ih =>
    intro b u v hlen h
    cases b with
    | nil => simp at hlen
    | cons y bs =>
      simp only [strLt] at h
      simp only [List.cons_append, strLt]
      by_cases h1 : x < y
      · simp [h1]
      · rw [if_neg h1] at h ⊢
        by_cases h2 : y < x
        · rw [if_pos h2] at h; exact absurd h (by simp)
        · rw [if_neg h2] at h ⊢
          exact ih bs u v (by simpa using hlen) h

/-- Python string `<` is asymmetric. -/
theorem strLt_asymm :
    ∀ a b : List Char, strLt a b = true → strLt b a = false := by
  intro a
  induction a with
  | nil =>
    intro b h
    cases b with
    | nil => simp [strLt] at h
    | cons y bs => simp [strLt]
  | cons x as ih =>
    intro b h
    cases b with
    | nil => simp [strLt] at h
    | cons y bs =>
      simp only [strLt] at h ⊢
      by_cases h1 : x < y
      · have h2 : ¬ y < x := fun hyx => absurd (lt_trans h1 hyx) (lt_irrefl x)
        simp [h1, h2]
      · rw [if_neg h1] at h
        by_cases h2 : y < x
        · rw [if_pos h2] at h; exact absurd h (by simp)
        · rw [if_neg h2] at h
          simp [h1, h2, ih bs h]

/-- C7: for any two cross-process tickets with distinct nanosecond
timestamps `t1 < t2` (both below `10^20`), the name
`f"{t1:020d}-{p1}.ticket"` sorts lexicographically before
`f"{t2:020d}-{p2}.ticket"` whatever the pids are, and Python `sorted`
(as used by `_sorted_tickets`) puts the earlier ticket first, so the
sorted-name order equals creation-time FIFO order. -/
theorem C7_ticket_name_order (t1 t2 p1 p2 : ℕ) (h12 : t1 < t2)
    (h2 : t2 < 10 ^ 20) :
    strLt (ticketName t1 p1) (ticketName t2 p2) = true ∧
      pySorted [ticketName t2 p2, ticketName t1 p1] =
        [ticketName t1 p1, ticketName t2 p2] := by
  have h1 : t1 < 10 ^ 20 := lt_trans h12 h2
  have hlen : (padded 20 t1).length = (padded 20 t2).length := by
    rw [padded_length 20 t1 (by norm_num) h1,
      padded_length 20 t2 (by norm_num) h2]
  have hpad : strLt (padded 20 t1) (padded 20 t2) = true := by
    apply strLt_of_digitsVal_lt _ _ (isDigitStr_padded 20 t1)
      (isDigitStr_padded 20 t2) hlen
    rw [digitsVal_padded, digitsVal_padded]
    exact h12
  have hmain : strLt (ticketName t1 p1) (ticketName t2 p2) = true :=
    strLt_append _ _ _ _ hlen hpad
  refine ⟨hmain, ?_⟩
  have hrev : strLt (ticketName t2 p2) (ticketName t1 p1) = false :=
    strLt_asymm _ _ hmain
  simp [pySorted, List.insertionSort, List.orderedInsert, hmain]

/-- C7 witness: concrete tickets at timestamps 1 and 2. -/
theorem C7_ticket_name_order_witness :
    1 < 2 ∧ 2 < 10 ^ 20 ∧
      strLt (ticketName 1 7) (ticketName 2 5) = true :=
  ⟨by norm_num, by norm_num, (C7_ticket_name_order 1 2 7 5 (by norm_num)
    (by norm_num)).1⟩

/-- C10: `ResourceManager` is a process-wide singleton: starting from an
unset `_instance`, a first construction with thresholds `(t0, i0)`
followed by any sequence of further constructor calls (with arbitrary,
possibly different arguments) returns the very same initialised object
every time, with the original thresholds unchanged. -/
theorem C10_resource_manager_singleton (t0 i0 : ℚ)
    (calls : List (ℚ × ℚ)) :
    rmRunCalls none ((t0, i0) :: calls) =
      (List.replicate (calls.length + 1) ⟨t0, i0, true⟩,
        some ⟨t0, i0, true⟩) := by
  have h : (⟨t0, i0, true⟩ : RMObj).initialized = true := rfl
  simp [rmRunCalls, rmConstruct, rmNew, rmInit,
    rmRunCalls_initialized _ h, List.replicate]

/- ──────────────── Chunker lemmas: words and joins ──────────────── -/

/-- `joinSpace` on a cons, in closed form. -/
theorem joinSpace_cons_eq (w : List Char) (ws : List (List Char)) :
    joinSpace (w :: ws) = w ++ (if ws = [] then [] else ' ' :: joinSpace ws) := by
  cases ws <;> simp [joinSpace]

/-- A join headed by a non-empty word is non-empty. -/
theorem joinSpace_ne_nil (w : List Char) (ws : List (List Char))
    (hw : w ≠ []) : joinSpace (w :: ws) ≠ [] := by
  rw [joinSpace_cons_eq]
  intro hcontra
  rcases List.append_eq_nil.mp hcontra with ⟨h1, _⟩
  exact hw h1

/-- Joining a concatenation of two non-empty lists of words. -/
theorem joinSpace_append (a b : List (List Char)) (ha : a ≠ [])
    (hb : b ≠ []) :
    joinSpace (a ++ b) = joinSpace a ++ ' ' :: joinSpace b := by
  induction a with
  | nil => exact absurd rfl ha
  | cons w a ih =>
    cases a with
    | nil =>
      cases b with
      | nil => exact absurd rfl hb
      | cons y bs => simp [joinSpace]
    | cons x as =>
      have ih2 := ih (by simp)
      simp only [List.cons_append] at ih2
      have h1 : joinSpace (w :: (x :: (as ++ b))) =
          w ++ ' ' :: joinSpace (x :: (as ++ b)) := rfl
      have h2 : joinSpace (w :: x :: as) = w ++ ' ' :: joinSpace (x :: as) :=
        rfl
      simp only [List.cons_append]
      rw [h1, ih2, h2]
      simp

/-- `dropWhile` is the identity when the head (if any) fails the
predicate. -/
theorem dropWhile_eq_self (s : List Char)
    (h : s = [] ∨ ∃ c t, s = c :: t ∧ isPyWS c = false) :
    s.dropWhile isPyWS = s := by
  rcases h with rfl | ⟨c, t, rfl, hc⟩
  · rfl
  · rw [List.dropWhile_cons, hc]
    simp

/-- `strip` is the identity when neither end is whitespace. -/
theorem strip_eq_self (s : List Char)
    (h1 : s.dropWhile isPyWS = s)
    (h2 : s.reverse.dropWhile isPyWS = s.reverse) : strip s = s := by
  unfold strip
  rw [h1, h2, List.reverse_reverse]

/-- The join of non-empty whitespace-free words begins with a
non-whitespace character (or is empty). -/
theorem joinSpace_head_shape (ws : List (List Char))
    (h : ∀ w ∈ ws, IsWord w) :
    joinSpace ws = [] ∨
      ∃ c t, joinSpace ws = c :: t ∧ isPyWS c = false := by
  cases ws with
  | nil => exact Or.inl rfl
  | cons w rest =>
    obtain ⟨hne, hall⟩ := h w (by simp)
    cases w with
    | nil => exact absurd rfl hne
    | cons c w2 =>
      refine Or.inr ⟨c, w2 ++ (if rest = [] then [] else ' ' :: joinSpace rest),
        ?_, hall c (by simp)⟩
      rw [joinSpace_cons_eq]
      simp

/-- The join of non-empty whitespace-free words ends with a
non-whitespace character (or is empty): its reverse has the head
shape. -/
theorem joinSpace_reverse_shape (ws : List (List Char))
    (h : ∀ w ∈ ws, IsWord w) :
    (joinSpace ws).reverse = [] ∨
      ∃ c t, (joinSpace ws).reverse = c :: t ∧ isPyWS c = false := by
  rcases List.eq_nil_or_concat ws with rfl | ⟨l, w, hws⟩
  · exact Or.inl rfl
  · subst hws
    simp only [List.concat_eq_append] at h ⊢
    obtain ⟨hne, hall⟩ := h w (by simp)
    have hY : ∃ Y, joinSpace (l ++ [w]) = Y ++ w := by
      cases l with
      | nil => exact ⟨[], by simp [joinSpace]⟩
      | cons x xs =>
        refine ⟨joinSpace (x :: xs) ++ [' '], ?_⟩
        rw [joinSpace_append (x :: xs) [w] (by simp) (by simp)]
        simp [joinSpace]
    obtain ⟨Y, hYeq⟩ := hY
    rcases List.eq_nil_or_concat w with hw0 | ⟨t, d, hw⟩
    · exact absurd hw0 hne
    · subst hw
      simp only [List.concat_eq_append] at hne hall hYeq ⊢
      refine Or.inr ⟨d, t.reverse ++ Y.reverse, ?_, hall d (by simp)⟩
      rw [hYeq]
      simp

/-- Stripping the join of words is the identity. -/
theorem strip_join (ws : List (List Char)) (h : ∀ w ∈ ws, IsWord w) :
    strip (joinSpace ws) = joinSpace ws := by
  apply strip_eq_self
  · exact dropWhile_eq_self _ (joinSpace_head_shape ws h)
  · have := joinSpace_reverse_shape ws h
    rcases this with h0 | ⟨c, t, heq, hc⟩
    · rw [h0]; rfl
    · rw [heq, List.dropWhile_cons, hc]; simp

/-- Stripping after appending a trailing space. -/
theorem strip_append_space (t : List Char) : strip (t ++ [' ']) = strip t := by
  unfold strip
  rw [List.dropWhile_append]
  by_cases h : (t.dropWhile isPyWS).isEmpty
  · rw [if_pos h]
    have ht : t.dropWhile isPyWS = [] := List.isEmpty_iff.mp h
    rw [ht]
    have h2 : List.dropWhile isPyWS [' '] = [] := rfl
    rw [h2]
  · rw [if_neg h]
    rw [List.reverse_append]
    simp only [List.reverse_cons, List.reverse_nil, List.nil_append,
      List.singleton_append]
    rw [List.dropWhile_cons]
    have hsp : isPyWS ' ' = true := rfl
    rw [hsp]
    simp

/-- The current-chunk string is empty iff there are no words in it. -/
theorem curOf_eq_nil (tw : List (List Char)) : curOf tw = [] ↔ tw = [] := by
  unfold curOf
  constructor
  · intro h
    by_contra hne
    rw [if_neg hne] at h
    rcases List.append_eq_nil.mp h with ⟨_, h2⟩
    cases h2
  · intro h; rw [if_pos h]

/-- Stripping the current chunk recovers the joined words. -/
theorem strip_curOf (tw : List (List Char)) (h : ∀ w ∈ tw, IsWord w) :
    strip (curOf tw) = joinSpace tw := by
  unfold curOf
  by_cases htw : tw = []
  · subst htw; rfl
  · rw [if_neg htw, strip_append_space, strip_join tw h]

/-- A non-whitespace character is not a space. -/
theorem ne_space_of_not_ws (c : Char) (h : isPyWS c = false) : c ≠ ' ' := by
  intro hc
  subst hc
  cases h

/- ─────────────── Chunker lemmas: `str.split()` ─────────────────── -/

/-- Equation of `splitAux` on the empty string. -/
theorem splitAux_nil (acc : List Char) :
    splitAux acc [] = if acc = [] then [] else [acc.reverse] := rfl

/-- Equation of `splitAux` on a cons. -/
theorem splitAux_cons (acc : List Char) (c : Char) (l : List Char) :
    splitAux acc (c :: l) =
      if isPyWS c = true then
        (if acc = [] then splitAux [] l else acc.reverse :: splitAux [] l)
      else splitAux (c :: acc) l := rfl

/-- Every token produced by `splitAux` is a word, provided the
accumulator holds only non-whitespace characters. -/
theorem splitAux_words (s : List Char) :
    ∀ acc, (∀ c ∈ acc, isPyWS c = false) →
      ∀ w ∈ splitAux acc s, IsWord w := by
  induction s with
  | nil =>
    intro acc hacc w hw
    rw [splitAux_nil] at hw
    split_ifs at hw with h
    · simp at hw
    · simp only [List.mem_singleton] at hw
      subst hw
      refine ⟨by simp [h], ?_⟩
      intro c hc
      exact hacc c (List.mem_reverse.mp hc)
  | cons c rest ih =>
    intro acc hacc w hw
    rw [splitAux_cons] at hw
    by_cases hws : isPyWS c = true
    · rw [if_pos hws] at hw
      by_cases hacc0 : acc = []
      · rw [if_pos hacc0] at hw
        exact ih [] (by simp) w hw
      · rw [if_neg hacc0] at hw
        rcases List.mem_cons.mp hw with hweq | hw2
        · subst hweq
          refine ⟨by simp [hacc0], ?_⟩
          intro d hd
          exact hacc d (List.mem_reverse.mp hd)
        · exact ih [] (by simp) w hw2
    · rw [if_neg hws] at hw
      refine ih (c :: acc) ?_ w hw
      intro d hd
      rcases List.mem_cons.mp hd with hdeq | hd2
      · subst hdeq
        simpa using hws
      · exact hacc d hd2

/-- Every token of `str.split()` is a word. -/
theorem pySplit_words (s : List Char) : ∀ w ∈ pySplit s, IsWord w :=
  splitAux_words s [] (by simp)

/-- `splitAux` scans a whitespace-free block into the accumulator. -/
theorem splitAux_scan (w : List Char) (hw : ∀ c ∈ w, isPyWS c = false) :
    ∀ acc rest, splitAux acc (w ++ rest) = splitAux (w.reverse ++ acc) rest := by
  induction w with
  | nil => intro acc rest; simp
  | cons c w2 ih =>
    intro acc rest
    have hc : isPyWS c = false := hw c (by simp)
    simp only [List.cons_append]
    have hstep : splitAux acc (c :: (w2 ++ rest)) =
        splitAux (c :: acc) (w2 ++ rest) := by
      rw [splitAux_cons, if_neg (by simp [hc])]
    rw [hstep, ih (fun d hd => hw d (by simp [hd])) (c :: acc) rest]
    congr 1
    simp

/-- `splitAux` flushes a non-empty accumulator at a space. -/
theorem splitAux_space (acc rest : List Char) (hacc : acc ≠ []) :
    splitAux acc (' ' :: rest) = acc.reverse :: splitAux [] rest := by
  rw [splitAux_cons, if_pos (by rfl), if_neg hacc]

/-- `str.split()` recovers the words from their joined form. -/
theorem splitAux_join : ∀ ws : List (List Char), (∀ w ∈ ws, IsWord w) →
    splitAux [] (joinSpace ws) = ws := by
  intro ws
  induction ws with
  | nil => intro _; rfl
  | cons w rest ih =>
    intro h
    obtain ⟨hne, hall⟩ := h w (by simp)
    cases rest with
    | nil =>
      have hj : joinSpace [w] = w := rfl
      rw [hj]
      have h2 := splitAux_scan w hall [] []
      simp only [List.append_nil] at h2
      rw [h2, splitAux_nil, if_neg (by simp [hne])]
      simp
    | cons x rest2 =>
      have hj : joinSpace (w :: x :: rest2) =
          w ++ ' ' :: joinSpace (x :: rest2) := rfl
      rw [hj, splitAux_scan w hall [] _]
      rw [splitAux_space _ _ (by simp [hne])]
      rw [ih (fun v hv => h v (by simp [hv]))]
      simp

/-- `str.split()` of a join of words gives back the words. -/
theorem pySplit_join (ws : List (List Char)) (h : ∀ w ∈ ws, IsWord w) :
    pySplit (joinSpace ws) = ws :=
  splitAux_join ws h

/- ─────────────── Chunker lemmas: `split(' ')` ──────────────────── -/

/-- Equation of `splitChar` on a cons. -/
theorem splitChar_cons (c : Char) (rest : List Char) :
    splitChar (c :: rest) =
      if c = ' ' then [] :: splitChar rest
      else
        match splitChar rest with
        | w :: ws => (c :: w) :: ws
        | [] => [[c]] := rfl

/-- `splitChar` never returns an empty list of pieces. -/
theorem splitChar_ne_nil (s : List Char) : splitChar s ≠ [] := by
  cases s with
  | nil => simp [splitChar]
  | cons c rest =>
    unfold splitChar
    by_cases hc : c = ' '
    · rw [if_pos hc]; simp
    · rw [if_neg hc]
      cases splitChar rest <;> simp

/-- Scanning a space-free block prepends it to the first piece. -/
theorem splitChar_prepend (w : List Char) (hw : ∀ c ∈ w, c ≠ ' ') :
    ∀ r, splitChar (w ++ r) =
      (w ++ (splitChar r).headI) :: (splitChar r).tail := by
  induction w with
  | nil =>
    intro r
    simp only [List.nil_append]
    cases hsc : splitChar r with
    | nil => exact absurd hsc (splitChar_ne_nil r)
    | cons a t => simp
  | cons c w2 ih =>
    intro r
    have hc : c ≠ ' ' := hw c (by simp)
    simp only [List.cons_append]
    rw [splitChar_cons, if_neg hc, ih (fun d hd => hw d (by simp [hd])) r]

/-- `split(' ')` of a join of words gives back the words. -/
theorem splitChar_join : ∀ ws : List (List Char), ws ≠ [] →
    (∀ w ∈ ws, IsWord w) → splitChar (joinSpace ws) = ws := by
  intro ws
  induction ws with
  | nil => intro h _; exact absurd rfl h
  | cons w rest ih =>
    intro _ h
    obtain ⟨hne, hall⟩ := h w (by simp)
    have hnsp : ∀ c ∈ w, c ≠ ' ' :=
      fun c hc => ne_space_of_not_ws c (hall c hc)
    cases rest with
    | nil =>
      have hj : joinSpace [w] = w := rfl
      rw [hj, ← List.append_nil w, splitChar_prepend w hnsp []]
      simp [splitChar]
    | cons x rest2 =>
      have hj : joinSpace (w :: x :: rest2) =
          w ++ ' ' :: joinSpace (x :: rest2) := rfl
      rw [hj, splitChar_prepend w hnsp _]
      have hsp : splitChar (' ' :: joinSpace (x :: rest2)) =
          [] :: splitChar (joinSpace (x :: rest2)) := by
        rw [splitChar_cons, if_pos rfl]
      rw [hsp, ih (by simp) (fun v hv => h v (by simp [hv]))]
      simp

/- ───────────── Chunker lemmas: sentence splitting ──────────────── -/

/-- Equation of `sentAux` on the empty string. -/
theorem sentAux_nil (skip : Bool) (prev : Char) (acc : List Char) :
    sentAux skip prev acc [] = [acc.reverse] := rfl

/-- Equation of `sentAux` on a cons. -/
theorem sentAux_cons (skip : Bool) (prev : Char) (acc : List Char)
    (c : Char) (rest : List Char) :
    sentAux skip prev acc (c :: rest) =
      if skip = true then
        (if isPyWS c = true then sentAux true ' ' acc rest
         else sentAux false c (c :: acc) rest)
      else if isTerm prev && isPyWS c then
        acc.reverse :: sentAux true ' ' [] rest
      else sentAux false c (c :: acc) rest := rfl

/-- While scanning a whitespace-free word no split fires; the word goes
into the accumulator and the previous character becomes its last. -/
theorem sentAux_scan (w : List Char) (hw : ∀ c ∈ w, isPyWS c = false) :
    ∀ prev acc rest, sentAux false prev acc (w ++ rest) =
      sentAux false (w.getLastD prev) (w.reverse ++ acc) rest := by
  induction w with
  | nil => intro prev acc rest; simp
  | cons c w2 ih =>
    intro prev acc rest
    have hc : isPyWS c = false := hw c (by simp)
    simp only [List.cons_append]
    rw [sentAux_cons, if_neg (by simp), if_neg (by simp [hc])]
    rw [ih (fun d hd => hw d (by simp [hd])) c (c :: acc) rest]
    congr 1
    · exact (List.getLastD_cons prev c w2).symm ▸ rfl
    · simp

/-- In skip mode the previous character is irrelevant, and a non-blank
character leaves skip mode exactly as a fresh scan would. -/
theorem sentAux_skip_exit (c : Char) (rest : List Char)
    (hc : isPyWS c = false) (p p2 : Char) (acc : List Char) :
    sentAux true p acc (c :: rest) = sentAux false p2 acc (c :: rest) := by
  rw [sentAux_cons, sentAux_cons]
  rw [if_pos rfl, if_neg (by simp [hc]), if_neg (by simp),
    if_neg (by simp [hc])]

/-- The default value of `getLastD` is irrelevant on a cons. -/
theorem getLastD_irrel (w : List Char) (hw : w ≠ []) (a b : Char) :
    w.getLastD a = w.getLastD b := by
  cases w with
  | nil => exact absurd rfl hw
  | cons c w2 =>
    rw [List.getLastD_cons, List.getLastD_cons]

/-- `sentGroups` of a non-empty word list is non-empty. -/
theorem sentGroups_ne_nil : ∀ ws : List (List Char), ws ≠ [] →
    sentGroups ws ≠ []
  | [], h => absurd rfl h
  | [_], _ => by simp [sentGroups]
  | w :: x :: ws, _ => by
    rw [sentGroups]
    split_ifs
    · simp
    · cases sentGroups (x :: ws) <;> simp

/-- The groups flatten back to the word list. -/
theorem sentGroups_join : ∀ ws : List (List Char),
    (sentGroups ws).flatten = ws
  | [] => rfl
  | [w] => rfl
  | w :: x :: ws => by
    have ih := sentGroups_join (x :: ws)
    rw [sentGroups]
    split_ifs
    · simp [ih]
    · cases hg : sentGroups (x :: ws) with
      | nil => exact absurd hg (sentGroups_ne_nil _ (by simp))
      | cons g gs =>
        rw [hg] at ih
        simp only [List.flatten_cons, List.cons_append] at ih ⊢
        rw [ih]

/-- Every group is non-empty. -/
theorem sentGroups_mem_ne_nil : ∀ ws : List (List Char),
    ∀ g ∈ sentGroups ws, g ≠ []
  | [] => by simp [sentGroups]
  | [w] => by simp [sentGroups]
  | w :: x :: ws => by
    intro g hg
    rw [sentGroups] at hg
    split_ifs at hg
    · rcases List.mem_cons.mp hg with hgeq | hg2
      · subst hgeq; simp
      · exact sentGroups_mem_ne_nil (x :: ws) g hg2
    · cases hsg : sentGroups (x :: ws) with
      | nil => exact absurd hsg (sentGroups_ne_nil _ (by simp))
      | cons g2 gs =>
        rw [hsg] at hg
        rcases List.mem_cons.mp hg with hgeq | hg2
        · subst hgeq; simp
        · exact sentGroups_mem_ne_nil (x :: ws) g
            (hsg ▸ List.mem_cons_of_mem g2 hg2)

/-- Words of a group are words of the original list. -/
theorem sentGroups_mem_mem (ws : List (List Char)) (g : List (List Char))
    (hg : g ∈ sentGroups ws) (w : List Char) (hw : w ∈ g) : w ∈ ws := by
  have : w ∈ (sentGroups ws).flatten := List.mem_flatten.mpr ⟨g, hg, hw⟩
  rwa [sentGroups_join ws] at this

/-- Scanning the join of a non-empty word list from any `prev`/`acc`
produces the sentence groups, with the accumulator prepended to the
first. -/
theorem sentAux_join : ∀ ws : List (List Char), ws ≠ [] →
    (∀ w ∈ ws, IsWord w) → ∀ prev acc,
      ∃ g gs, sentGroups ws = g :: gs ∧
        sentAux false prev acc (joinSpace ws) =
          (acc.reverse ++ joinSpace g) :: gs.map joinSpace := by
  intro ws
  induction ws with
  | nil => intro h; exact absurd rfl h
  | cons w rest ih =>
    intro _ hwords prev acc
    obtain ⟨hne, hall⟩ := hwords w (by simp)
    cases rest with
    | nil =>
      refine ⟨[w], [], rfl, ?_⟩
      have hj : joinSpace [w] = w := rfl
      rw [hj]
      have hscan := sentAux_scan w hall prev acc []
      rw [List.append_nil] at hscan
      rw [hscan, sentAux_nil]
      simp [joinSpace]
    | cons x rest2 =>
      obtain ⟨g2, gs2, hsg2, _⟩ :=
        ih (by simp) (fun v hv => hwords v (by simp [hv])) 'x' []
      have hg2ne : g2 ≠ [] :=
        sentGroups_mem_ne_nil (x :: rest2) g2 (by rw [hsg2]; simp)
      obtain ⟨hx, hxall⟩ := hwords x (by simp)
      have hxhead : ∃ c t, joinSpace (x :: rest2) = c :: t ∧
          isPyWS c = false := by
        rcases joinSpace_head_shape (x :: rest2)
            (fun v hv => hwords v (by simp [hv])) with h0 | h1
        · exact absurd h0 (joinSpace_ne_nil x rest2 hx)
        · exact h1
      obtain ⟨c0, t0, hct, hc0⟩ := hxhead
      have hj : joinSpace (w :: x :: rest2) =
          w ++ ' ' :: joinSpace (x :: rest2) := rfl
      rw [hj, sentAux_scan w hall prev acc _]
      rw [sentAux_cons, if_neg (by simp)]
      by_cases hterm : isTerm (w.getLastD prev) = true
      · rw [if_pos (by rw [hterm]; rfl)]
        have hskip : sentAux true ' ' [] (joinSpace (x :: rest2)) =
            sentAux false 'x' [] (joinSpace (x :: rest2)) := by
          rw [hct]
          exact sentAux_skip_exit c0 t0 hc0 ' ' 'x' []
        obtain ⟨g, gs, hsg, heq⟩ :=
          ih (by simp) (fun v hv => hwords v (by simp [hv])) 'x' []
        refine ⟨[w], g :: gs, ?_, ?_⟩
        · rw [sentGroups]
          rw [if_pos]
          · rw [hsg]
          · rw [getLastD_irrel w hne 'x' prev]
            exact hterm
        · rw [hskip, heq]
          simp [joinSpace]
      · rw [if_neg (by
          simp only [Bool.not_eq_true] at hterm
          rw [hterm]
          simp)]
        obtain ⟨g, gs, hsg, heq⟩ :=
          ih (by simp) (fun v hv => hwords v (by simp [hv])) ' '
            (' ' :: (w.reverse ++ acc))
        have hgne : g ≠ [] :=
          sentGroups_mem_ne_nil (x :: rest2) g (by rw [hsg]; simp)
        refine ⟨w :: g, gs, ?_, ?_⟩
        · rw [sentGroups]
          rw [if_neg]
          · rw [hsg]
          · rw [getLastD_irrel w hne 'x' prev]
            exact hterm
        · rw [heq]
          have hjoin : joinSpace (w :: g) = w ++ ' ' :: joinSpace g := by
            rw [show w :: g = [w] ++ g from rfl,
              joinSpace_append [w] g (by simp) hgne]
            rfl
          rw [hjoin]
          simp

/-- `re.split` on the join of a non-empty word list yields exactly the
joined sentence groups. -/
theorem sentenceSplit_join (ws : List (List Char)) (hne : ws ≠ [])
    (h : ∀ w ∈ ws, IsWord w) :
    sentenceSplit (joinSpace ws) = (sentGroups ws).map joinSpace := by
  obtain ⟨g, gs, hsg, heq⟩ := sentAux_join ws hne h 'x' []
  unfold sentenceSplit
  rw [heq, hsg]
  simp

/- ─────── Chunker lemmas: word-level simulation of the loops ─────── -/

/-- The char-level inner step simulates the word-level inner step. -/
theorem subStep_sim (m : ℕ) (cs : List (List (List Char)))
    (tw : List (List Char)) (htw : ∀ v ∈ tw, IsWord v)
    (w : List Char) (_hw : IsWord w) :
    subStep m (cs.map joinSpace, curOf tw) w =
      ((subStepW m (cs, tw) w).1.map joinSpace,
        curOf (subStepW m (cs, tw) w).2) := by
  unfold subStep subStepW
  dsimp only
  by_cases hc : (curOf tw).length + w.length + 1 ≤ m
  · rw [if_pos hc, if_pos hc]
    have harg : curOf tw ++ w ++ [' '] = curOf (tw ++ [w]) := by
      unfold curOf
      by_cases htw0 : tw = []
      · subst htw0
        simp [joinSpace]
      · rw [if_neg htw0, if_neg (by simp)]
        rw [joinSpace_append tw [w] htw0 (by simp)]
        simp [joinSpace]
    rw [harg]
  · rw [if_neg hc, if_neg hc]
    have hchunks : (if curOf tw = [] then cs.map joinSpace
        else cs.map joinSpace ++ [strip (curOf tw)]) =
        (if tw = [] then cs else cs ++ [tw]).map joinSpace := by
      by_cases htw0 : tw = []
      · subst htw0
        simp [curOf]
      · rw [if_neg ((not_congr (curOf_eq_nil tw)).mpr htw0), if_neg htw0]
        rw [strip_curOf tw htw]
        simp
    have harg : w ++ [' '] = curOf [w] := by
      unfold curOf
      rw [if_neg (by simp)]
      rfl
    rw [hchunks, harg]

/-- The word-level inner step only appends words to the state. -/
theorem subStepW_temp_words (m : ℕ) (cs : List (List (List Char)))
    (tw : List (List Char)) (htw : ∀ v ∈ tw, IsWord v)
    (w : List Char) (hw : IsWord w) :
    ∀ v ∈ (subStepW m (cs, tw) w).2, IsWord v := by
  unfold subStepW
  dsimp only
  by_cases hc : (curOf tw).length + w.length + 1 ≤ m
  · rw [if_pos hc]
    intro v hv
    rcases List.mem_append.mp hv with hv1 | hv2
    · exact htw v hv1
    · rw [List.mem_singleton] at hv2
      subst hv2
      exact hw
  · rw [if_neg hc]
    intro v hv
    rw [List.mem_singleton] at hv
    subst hv
    exact hw

/-- The inner loop of the chunker, simulated word by word. -/
theorem foldl_subStep_sim (m : ℕ) :
    ∀ (words : List (List Char)), (∀ w ∈ words, IsWord w) →
      ∀ cs tw, (∀ v ∈ tw, IsWord v) →
      (words.foldl (subStep m) (cs.map joinSpace, curOf tw) =
        ((words.foldl (subStepW m) (cs, tw)).1.map joinSpace,
          curOf (words.foldl (subStepW m) (cs, tw)).2)) ∧
      (∀ v ∈ (words.foldl (subStepW m) (cs, tw)).2, IsWord v) := by
  intro words
  induction words with
  | nil => intro _ cs tw htw; exact ⟨rfl, htw⟩
  | cons w ws ih =>
    intro hws cs tw htw
    have hw : IsWord w := hws w (by simp)
    have hsim := subStep_sim m cs tw htw w hw
    have htw2 := subStepW_temp_words m cs tw htw w hw
    rcases hsplit : subStepW m (cs, tw) w with ⟨cs2, tw2⟩
    rw [hsplit] at hsim htw2
    simp only [List.foldl_cons]
    rw [hsim, hsplit]
    exact ih (fun v hv => hws v (by simp [hv])) cs2 tw2 htw2

/-- For a word within the limit, `wordStep` is just `subStep`. -/
theorem wordStep_small (m : ℕ) (st : List (List Char) × List Char)
    (w : List Char) (h : w.length ≤ m) :
    wordStep m st w = subStep m st w := by
  unfold wordStep
  rw [if_neg (by omega)]

/-- Over words within the limit, the word loop is the inner loop. -/
theorem foldl_wordStep_eq (m : ℕ) :
    ∀ (words : List (List Char)), (∀ w ∈ words, w.length ≤ m) →
      ∀ st, words.foldl (wordStep m) st = words.foldl (subStep m) st := by
  intro words
  induction words with
  | nil => intro _ st; rfl
  | cons w ws ih =>
    intro h st
    simp only [List.foldl_cons]
    rw [wordStep_small m st w (h w (by simp)),
      ih (fun v hv => h v (by simp [hv]))]

/-- The char-level sentence step simulates the word-level one, on a
sentence that is the join of non-empty in-limit words. -/
theorem sentStep_sim (m : ℕ) (cs : List (List (List Char)))
    (cw : List (List Char)) (hcw : ∀ v ∈ cw, IsWord v)
    (sw : List (List Char)) (hsw : sw ≠ [])
    (hsww : ∀ w ∈ sw, IsWord w) (hlen : ∀ w ∈ sw, w.length ≤ m) :
    (sentStep m (cs.map joinSpace, curOf cw) (joinSpace sw) =
      ((sentStepW m (cs, cw) sw).1.map joinSpace,
        curOf (sentStepW m (cs, cw) sw).2)) ∧
    (∀ v ∈ (sentStepW m (cs, cw) sw).2, IsWord v) := by
  have hstrip : strip (joinSpace sw) = joinSpace sw := strip_join sw hsww
  have hjne : joinSpace sw ≠ [] := by
    cases sw with
    | nil => exact absurd rfl hsw
    | cons a l => exact joinSpace_ne_nil a l (hsww a (by simp)).1
  unfold sentStep sentStepW
  dsimp only
  rw [if_neg (by rw [hstrip]; exact hjne)]
  by_cases hfit : (curOf cw).length + (joinSpace sw).length + 1 ≤ m
  · rw [if_pos hfit, if_pos hfit]
    constructor
    · have harg : curOf cw ++ joinSpace sw ++ [' '] = curOf (cw ++ sw) := by
        unfold curOf
        by_cases hcw0 : cw = []
        · subst hcw0
          rw [if_pos rfl, if_neg (by simp [hsw])]
          simp
        · rw [if_neg hcw0, if_neg (by simp [hcw0])]
          rw [joinSpace_append cw sw hcw0 hsw]
          simp
      rw [harg]
    · intro v hv
      rcases List.mem_append.mp hv with hv1 | hv2
      · exact hcw v hv1
      · exact hsww v hv2
  · rw [if_neg hfit, if_neg hfit]
    have hcs1 : (if curOf cw = [] then cs.map joinSpace
        else cs.map joinSpace ++ [strip (curOf cw)]) =
        (if cw = [] then cs else cs ++ [cw]).map joinSpace := by
      by_cases hcw0 : cw = []
      · subst hcw0
        simp [curOf]
      · rw [if_neg ((not_congr (curOf_eq_nil cw)).mpr hcw0), if_neg hcw0]
        rw [strip_curOf cw hcw]
        simp
    by_cases hlong : (joinSpace sw).length > m
    · rw [if_pos hlong, if_pos hlong]
      rw [splitChar_join sw hsw hsww, hcs1]
      rw [foldl_wordStep_eq m sw hlen]
      have hcur0 : ([] : List Char) = curOf [] := rfl
      have hfold := foldl_subStep_sim m sw hsww
        (if cw = [] then cs else cs ++ [cw]) [] (by simp)
      rw [hcur0]
      exact hfold
    · rw [if_neg hlong, if_neg hlong]
      constructor
      · rw [hcs1]
        have harg : joinSpace sw ++ [' '] = curOf sw := by
          unfold curOf
          rw [if_neg hsw]
        rw [harg]
      · exact hsww

/-- The main sentence loop, simulated group by group. -/
theorem foldl_sentStep_sim (m : ℕ) :
    ∀ (gs : List (List (List Char))),
      (∀ g ∈ gs, g ≠ [] ∧ ∀ w ∈ g, IsWord w ∧ w.length ≤ m) →
      ∀ cs cw, (∀ v ∈ cw, IsWord v) →
      ((gs.map joinSpace).foldl (sentStep m) (cs.map joinSpace, curOf cw) =
        ((gs.foldl (sentStepW m) (cs, cw)).1.map joinSpace,
          curOf (gs.foldl (sentStepW m) (cs, cw)).2)) ∧
      (∀ v ∈ (gs.foldl (sentStepW m) (cs, cw)).2, IsWord v) := by
  intro gs
  induction gs with
  | nil => intro _ cs cw hcw; exact ⟨rfl, hcw⟩
  | cons g gs2 ih =>
    intro hgs cs cw hcw
    obtain ⟨hgne, hgw⟩ := hgs g (by simp)
    have hsim := sentStep_sim m cs cw hcw g hgne
      (fun w hw => (hgw w hw).1) (fun w hw => (hgw w hw).2)
    rcases hsplit : sentStepW m (cs, cw) g with ⟨cs2, cw2⟩
    rw [hsplit] at hsim
    simp only [List.map_cons, List.foldl_cons]
    rw [hsim.1, hsplit]
    exact ih (fun g2 hg2 => hgs g2 (by simp [hg2])) cs2 cw2 hsim.2

/- ──────── Chunker lemmas: word content is preserved ────────────── -/

/-- The word-level inner step appends exactly one word. -/
theorem subStepW_flatten (m : ℕ)
    (st : List (List (List Char)) × List (List Char)) (w : List Char) :
    (subStepW m st w).1.flatten ++ (subStepW m st w).2 =
      st.1.flatten ++ st.2 ++ [w] := by
  rcases st with ⟨cs, tw⟩
  unfold subStepW
  dsimp only
  by_cases hc : (curOf tw).length + w.length + 1 ≤ m
  · rw [if_pos hc]
    simp
  · rw [if_neg hc]
    by_cases htw0 : tw = []
    · subst htw0
      simp
    · rw [if_neg htw0]
      simp

/-- The inner loop appends exactly its words. -/
theorem foldl_subStepW_flatten (m : ℕ) :
    ∀ (words : List (List Char))
      (st : List (List (List Char)) × List (List Char)),
      ((words.foldl (subStepW m) st).1.flatten ++
        (words.foldl (subStepW m) st).2) =
        st.1.flatten ++ st.2 ++ words := by
  intro words
  induction words with
  | nil => intro st; simp
  | cons w ws ih =>
    intro st
    simp only [List.foldl_cons]
    rw [ih (subStepW m st w), subStepW_flatten]
    simp

/-- The word-level sentence step appends exactly its words. -/
theorem sentStepW_flatten (m : ℕ)
    (st : List (List (List Char)) × List (List Char))
    (sw : List (List Char)) :
    (sentStepW m st sw).1.flatten ++ (sentStepW m st sw).2 =
      st.1.flatten ++ st.2 ++ sw := by
  rcases st with ⟨cs, cw⟩
  unfold sentStepW
  dsimp only
  by_cases hfit : (curOf cw).length + (joinSpace sw).length + 1 ≤ m
  · rw [if_pos hfit]
    simp
  · rw [if_neg hfit]
    by_cases hlong : (joinSpace sw).length > m
    · rw [if_pos hlong, foldl_subStepW_flatten]
      by_cases hcw0 : cw = [] <;> simp [hcw0]
    · rw [if_neg hlong]
      by_cases hcw0 : cw = [] <;> simp [hcw0]

/-- The sentence loop appends exactly the words of its groups. -/
theorem foldl_sentStepW_flatten (m : ℕ) :
    ∀ (gs : List (List (List Char)))
      (st : List (List (List Char)) × List (List Char)),
      ((gs.foldl (sentStepW m) st).1.flatten ++
        (gs.foldl (sentStepW m) st).2) =
        st.1.flatten ++ st.2 ++ gs.flatten := by
  intro gs
  induction gs with
  | nil => intro st; simp
  | cons g gs2 ih =>
    intro st
    simp only [List.foldl_cons]
    rw [ih (sentStepW m st g), sentStepW_flatten]
    simp

/-- The word-level inner step keeps all chunk groups non-empty. -/
theorem subStepW_chunks (m : ℕ)
    (st : List (List (List Char)) × List (List Char)) (w : List Char)
    (h : ∀ g ∈ st.1, g ≠ []) : ∀ g ∈ (subStepW m st w).1, g ≠ [] := by
  rcases st with ⟨cs, tw⟩
  unfold subStepW
  dsimp only
  by_cases hc : (curOf tw).length + w.length + 1 ≤ m
  · rw [if_pos hc]; exact h
  · rw [if_neg hc]
    by_cases htw0 : tw = []
    · rw [if_pos htw0]; exact h
    · rw [if_neg htw0]
      intro g hg
      rcases List.mem_append.mp hg with h1 | h2
      · exact h g h1
      · rw [List.mem_singleton] at h2
        subst h2
        exact htw0

/-- The inner loop keeps all chunk groups non-empty. -/
theorem foldl_subStepW_chunks (m : ℕ) :
    ∀ (words : List (List Char))
      (st : List (List (List Char)) × List (List Char)),
      (∀ g ∈ st.1, g ≠ []) →
      ∀ g ∈ (words.foldl (subStepW m) st).1, g ≠ [] := by
  intro words
  induction words with
  | nil => intro st h; exact h
  | cons w ws ih =>
    intro st h
    simp only [List.foldl_cons]
    exact ih (subStepW m st w) (subStepW_chunks m st w h)

/-- The word-level sentence step keeps all chunk groups non-empty. -/
theorem sentStepW_chunks (m : ℕ)
    (st : List (List (List Char)) × List (List Char))
    (sw : List (List Char)) (h : ∀ g ∈ st.1, g ≠ []) :
    ∀ g ∈ (sentStepW m st sw).1, g ≠ [] := by
  rcases st with ⟨cs, cw⟩
  have hcs1 : ∀ g ∈ (if cw = [] then cs else cs ++ [cw]), g ≠ [] := by
    by_cases hcw0 : cw = []
    · rw [if_pos hcw0]; exact h
    · rw [if_neg hcw0]
      intro g hg
      rcases List.mem_append.mp hg with h1 | h2
      · exact h g h1
      · rw [List.mem_singleton] at h2
        subst h2
        exact hcw0
  unfold sentStepW
  dsimp only
  by_cases hfit : (curOf cw).length + (joinSpace sw).length + 1 ≤ m
  · rw [if_pos hfit]; exact h
  · rw [if_neg hfit]
    by_cases hlong : (joinSpace sw).length > m
    · rw [if_pos hlong]
      exact foldl_subStepW_chunks m sw _ hcs1
    · rw [if_neg hlong]
      exact hcs1

/-- The sentence loop keeps all chunk groups non-empty. -/
theorem foldl_sentStepW_chunks (m : ℕ) :
    ∀ (gs : List (List (List Char)))
      (st : List (List (List Char)) × List (List Char)),
      (∀ g ∈ st.1, g ≠ []) →
      ∀ g ∈ (gs.foldl (sentStepW m) st).1, g ≠ [] := by
  intro gs
  induction gs with
  | nil => intro st h; exact h
  | cons g gs2 ih =>
    intro st h
    simp only [List.foldl_cons]
    exact ih (sentStepW m st g) (sentStepW_chunks m st g h)

/-- Joining per-group joins equals joining the flattened words. -/
theorem joinSpace_flatten : ∀ gss : List (List (List Char)),
    (∀ l ∈ gss, l ≠ []) →
    joinSpace (gss.map joinSpace) = joinSpace gss.flatten := by
  intro gss
  induction gss with
  | nil => intro _; rfl
  | cons a rest ih =>
    intro h
    cases rest with
    | nil => simp [joinSpace]
    | cons b rest2 =>
      have hane : a ≠ [] := h a (by simp)
      have hbne : b ≠ [] := h b (by simp)
      have hflatne : (b :: rest2).flatten ≠ [] := by
        simp only [List.flatten_cons]
        intro hcontra
        rcases List.append_eq_nil.mp hcontra with ⟨h1, _⟩
        exact hbne h1
      have h1 : joinSpace (joinSpace a :: (b :: rest2).map joinSpace) =
          joinSpace a ++ ' ' :: joinSpace ((b :: rest2).map joinSpace) := by
        simp only [List.map_cons]
        rfl
      have ih2 := ih (fun l hl => h l (by simp [hl]))
      simp only [List.map_cons] at h1 ih2 ⊢
      rw [h1, ih2]
      have h2 : (a :: b :: rest2).flatten = a ++ (b :: rest2).flatten := by
        simp
      rw [h2, joinSpace_append a ((b :: rest2).flatten) hane hflatne]

set_option maxRecDepth 40000 in
/-- C4, counterexample: on a single 201-character word the chunker
slices the word into two chunks, so rejoining the chunks with single
spaces inserts a space that the whitespace-normalised input does not
contain. -/
theorem C4_counterexample :
    joinSpace (split_text (List.replicate 201 'a') 200) ≠
      normalize (List.replicate 201 'a') := by
  decide

/-- C4 (amended): for every input string in which every
whitespace-delimited token has at most 200 characters, joining the
chunks returned by `split_text` with single spaces yields exactly the
whitespace-normalised input.  (For inputs containing a longer token the
equality fails, because fixed-size slicing rejoins the token's pieces
with spaces.) -/
theorem C4_rejoin (text : List Char)
    (hw : ∀ w ∈ pySplit text, w.length ≤ 200) :
    joinSpace (split_text text 200) = normalize text := by
  by_cases htext : text = []
  · subst htext; rfl
  · have hwords := pySplit_words text
    cases hW : pySplit text with
    | nil =>
      have hnorm : normalize text = [] := by
        unfold normalize
        rw [hW]
        rfl
      have hres : split_text text 200 = [] := by
        unfold split_text
        rw [if_neg htext]
        dsimp only
        rw [hnorm]
        rfl
      rw [hres, hnorm]
      rfl
    | cons w0 West =>
      have hWne : pySplit text ≠ [] := by rw [hW]; simp
      have hnorm : normalize text = joinSpace (pySplit text) := rfl
      have hsents : sentenceSplit (normalize text) =
          (sentGroups (pySplit text)).map joinSpace := by
        rw [hnorm]
        exact sentenceSplit_join _ hWne hwords
      have hgs : ∀ g ∈ sentGroups (pySplit text),
          g ≠ [] ∧ ∀ v ∈ g, IsWord v ∧ v.length ≤ 200 := by
        intro g hg
        refine ⟨sentGroups_mem_ne_nil _ g hg, ?_⟩
        intro v hv
        have hvW : v ∈ pySplit text := sentGroups_mem_mem _ g hg v hv
        exact ⟨hwords v hvW, hw v hvW⟩
      obtain ⟨hsim, hWcur⟩ :=
        foldl_sentStep_sim 200 (sentGroups (pySplit text)) hgs [] [] (by simp)
      rcases hfinal : (sentGroups (pySplit text)).foldl (sentStepW 200)
          ([], []) with ⟨csW, cwW⟩
      rw [hfinal] at hsim hWcur
      have hcontent :=
        foldl_sentStepW_flatten 200 (sentGroups (pySplit text)) ([], [])
      rw [hfinal] at hcontent
      simp only [List.flatten_nil, List.nil_append, List.append_nil]
        at hcontent
      rw [sentGroups_join] at hcontent
      have hchunksne :=
        foldl_sentStepW_chunks 200 (sentGroups (pySplit text)) ([], [])
          (by simp)
      rw [hfinal] at hchunksne
      unfold split_text
      rw [if_neg htext]
      dsimp only
      rw [hsents] at *
      have hstart : ((([] : List (List Char))), ([] : List Char)) =
          ((([] : List (List (List Char)))).map joinSpace, curOf []) := rfl
      rw [hstart, hsim]
      dsimp only
      by_cases hcw0 : cwW = []
      · subst hcw0
        have hc0 : curOf ([] : List (List Char)) = [] := rfl
        rw [hc0, if_pos rfl]
        rw [joinSpace_flatten csW hchunksne]
        simp only [List.append_nil] at hcontent
        rw [hcontent, hnorm]
      · rw [if_neg ((not_congr (curOf_eq_nil cwW)).mpr hcw0)]
        rw [strip_curOf cwW hWcur]
        have hmap : csW.map joinSpace ++ [joinSpace cwW] =
            (csW ++ [cwW]).map joinSpace := by simp
        rw [hmap, joinSpace_flatten (csW ++ [cwW]) ?hne]
        case hne =>
          intro g hg
          rcases List.mem_append.mp hg with h1 | h2
          · exact hchunksne g h1
          · rw [List.mem_singleton] at h2
            subst h2
            exact hcw0
        have hflat : (csW ++ [cwW]).flatten = csW.flatten ++ cwW := by
          simp
        rw [hflat, hcontent, hnorm]

/-- C4 witness: a small input within the token limit rejoins exactly. -/
theorem C4_rejoin_witness :
    joinSpace (split_text ['h', 'i', ' ', 'y', 'o'] 200) =
      normalize ['h', 'i', ' ', 'y', 'o'] :=
  C4_rejoin ['h', 'i', ' ', 'y', 'o'] (by decide)

/- ──────────── Chunker lemmas: the length bound ─────────────────── -/

/-- `strip` never lengthens a string. -/
theorem strip_length_le (s : List Char) : (strip s).length ≤ s.length := by
  unfold strip
  have h1 := (s.dropWhile_sublist isPyWS).length_le
  have h2 :=
    ((s.dropWhile isPyWS).reverse.dropWhile_sublist isPyWS).length_le
  simp only [List.length_reverse] at h1 h2 ⊢
  omega

/-- A running chunk with its trailing space strips to within `m`. -/
theorem strip_trailing_le (m : ℕ) (temp : List Char)
    (h1 : ∃ t, temp = t ++ [' ']) (h2 : temp.length ≤ m + 1) :
    (strip temp).length ≤ m := by
  obtain ⟨t, rfl⟩ := h1
  rw [strip_append_space]
  have h3 := strip_length_le t
  simp only [List.length_append, List.length_cons, List.length_nil] at h2
  omega

/-- The inner step preserves the bound invariant for in-limit pieces. -/
theorem subStep_bound (m : ℕ) (st : List (List Char) × List Char)
    (piece : List Char) (hst : BState m st) (hp : piece.length ≤ m) :
    BState m (subStep m st piece) := by
  obtain ⟨hcs, hcur⟩ := hst
  rcases st with ⟨cs, temp⟩
  unfold subStep
  dsimp only at hcs hcur ⊢
  by_cases hc : temp.length + piece.length + 1 ≤ m
  · rw [if_pos hc]
    refine ⟨hcs, Or.inr ⟨⟨temp ++ piece, by simp⟩, ?_⟩⟩
    simp only [List.length_append, List.length_cons, List.length_nil]
    omega
  · rw [if_neg hc]
    constructor
    · by_cases htemp : temp = []
      · rw [if_pos htemp]; exact hcs
      · rw [if_neg htemp]
        intro c hcmem
        rcases List.mem_append.mp hcmem with hin | hin
        · exact hcs c hin
        · rw [List.mem_singleton] at hin
          subst hin
          rcases hcur with h0 | ⟨htr, hle⟩
          · exact absurd h0 htemp
          · exact strip_trailing_le m temp htr hle
    · refine Or.inr ⟨⟨piece, rfl⟩, ?_⟩
      simp only [List.length_append, List.length_cons, List.length_nil]
      omega

/-- Every fixed-size slice fits in `k`. -/
theorem slices_length_le (w : List Char) (k : ℕ) :
    ∀ p ∈ slices w k, p.length ≤ k := by
  intro p hp
  unfold slices at hp
  rw [List.mem_map] at hp
  obtain ⟨i, _, rfl⟩ := hp
  simp [List.length_take]

/-- The inner loop preserves the bound invariant. -/
theorem foldl_subStep_bound (m : ℕ) :
    ∀ pieces : List (List Char), (∀ p ∈ pieces, p.length ≤ m) →
      ∀ st, BState m st → BState m (pieces.foldl (subStep m) st) := by
  intro pieces
  induction pieces with
  | nil => intro _ st h; exact h
  | cons p ps ih =>
    intro hps st h
    simp only [List.foldl_cons]
    exact ih (fun q hq => hps q (by simp [hq])) _
      (subStep_bound m st p h (hps p (by simp)))

/-- The word step preserves the bound invariant for any word. -/
theorem wordStep_bound (m : ℕ) (st : List (List Char) × List Char)
    (w : List Char) (hst : BState m st) : BState m (wordStep m st w) := by
  unfold wordStep
  by_cases hlong : w.length > m
  · rw [if_pos hlong]
    exact foldl_subStep_bound m _ (slices_length_le w m) st hst
  · rw [if_neg hlong]
    exact subStep_bound m st w hst (by omega)

/-- The word loop preserves the bound invariant. -/
theorem foldl_wordStep_bound (m : ℕ) :
    ∀ (words : List (List Char)) (st : List (List Char) × List Char),
      BState m st → BState m (words.foldl (wordStep m) st) := by
  intro words
  induction words with
  | nil => intro st h; exact h
  | cons w ws ih =>
    intro st h
    simp only [List.foldl_cons]
    exact ih _ (wordStep_bound m st w h)

/-- The sentence step preserves the bound invariant for any sentence. -/
theorem sentStep_bound (m : ℕ) (st : List (List Char) × List Char)
    (sentence : List Char) (hst : BState m st) :
    BState m (sentStep m st sentence) := by
  obtain ⟨hcs, hcur⟩ := hst
  rcases st with ⟨cs, cur⟩
  unfold sentStep
  dsimp only at hcs hcur ⊢
  by_cases hblank : strip sentence = []
  · rw [if_pos hblank]; exact ⟨hcs, hcur⟩
  · rw [if_neg hblank]
    have hchunks1 : ∀ c ∈ (if cur = [] then cs else cs ++ [strip cur]),
        c.length ≤ m := by
      by_cases hc0 : cur = []
      · rw [if_pos hc0]; exact hcs
      · rw [if_neg hc0]
        intro c hcmem
        rcases List.mem_append.mp hcmem with hin | hin
        · exact hcs c hin
        · rw [List.mem_singleton] at hin
          subst hin
          rcases hcur with h0 | ⟨htr, hle⟩
          · exact absurd h0 hc0
          · exact strip_trailing_le m cur htr hle
    by_cases hfit : cur.length + sentence.length + 1 ≤ m
    · rw [if_pos hfit]
      refine ⟨hcs, Or.inr ⟨⟨cur ++ sentence, by simp⟩, ?_⟩⟩
      simp only [List.length_append, List.length_cons, List.length_nil]
      omega
    · rw [if_neg hfit]
      by_cases hlong : sentence.length > m
      · rw [if_pos hlong]
        exact foldl_wordStep_bound m _ _ ⟨hchunks1, Or.inl rfl⟩
      · rw [if_neg hlong]
        refine ⟨hchunks1, Or.inr ⟨⟨sentence, rfl⟩, ?_⟩⟩
        simp only [List.length_append, List.length_cons, List.length_nil]
        omega

/-- The sentence loop preserves the bound invariant. -/
theorem foldl_sentStep_bound (m : ℕ) :
    ∀ (sents : List (List Char)) (st : List (List Char) × List Char),
      BState m st → BState m (sents.foldl (sentStep m) st) := by
  intro sents
  induction sents with
  | nil => intro st h; exact h
  | cons s ss ih =>
    intro st h
    simp only [List.foldl_cons]
    exact ih _ (sentStep_bound m st s h)

/-- A block of repeated non-whitespace characters is a word. -/
theorem isWord_replicate (n : ℕ) (hn : n ≠ 0) :
    IsWord (List.replicate n 'a') := by
  refine ⟨by simp [hn], ?_⟩
  intro c hc
  rw [List.eq_of_mem_replicate hc]
  rfl

/-- Slicing the 1000-character word gives five 200-character pieces. -/
theorem slices_thousand :
    slices (List.replicate 1000 'a') 200 =
      List.replicate 5 (List.replicate 200 'a') := by
  have e : ∀ i : ℕ, i * 200 + 200 ≤ 1000 →
      ((List.replicate 1000 'a').drop (i * 200)).take 200 =
        List.replicate 200 'a' := by
    intro i hi
    rw [List.drop_replicate, List.take_replicate]
    congr 1
    omega
  unfold slices
  rw [List.length_replicate]
  rw [show ((1000 : ℕ) + 200 - 1) / 200 = 5 by norm_num]
  rw [show List.range 5 = [0, 1, 2, 3, 4] from rfl]
  simp only [List.map_cons, List.map_nil]
  rw [e 0 (by norm_num), e 1 (by norm_num), e 2 (by norm_num),
    e 3 (by norm_num), e 4 (by norm_num)]
  rfl

/-- The chunker on a single word of 1000 identical characters. -/
theorem split_text_thousand :
    split_text (List.replicate 1000 'a') 200 =
      List.replicate 5 (List.replicate 200 'a') := by
  have hwordP : IsWord (List.replicate 200 'a') :=
    isWord_replicate 200 (by norm_num)
  have hwordW : IsWord (List.replicate 1000 'a') :=
    isWord_replicate 1000 (by norm_num)
  have hrepWne : List.replicate 1000 'a' ≠ [] := hwordW.1
  have hrepPne : List.replicate 200 'a' ≠ [] := hwordP.1
  have hPspne : List.replicate 200 'a' ++ [' '] ≠ [] := by
    intro hx
    exact List.cons_ne_nil ' ' [] (List.append_eq_nil.mp hx).2
  have hsingleW : ∀ v ∈ [List.replicate 1000 'a'], IsWord v := by
    intro v hv
    rw [List.mem_singleton] at hv
    subst hv
    exact hwordW
  have hsingleP : ∀ v ∈ [List.replicate 200 'a'], IsWord v := by
    intro v hv
    rw [List.mem_singleton] at hv
    subst hv
    exact hwordP
  have hjoinW : joinSpace [List.replicate 1000 'a'] =
      List.replicate 1000 'a' := rfl
  have hjoinP : joinSpace [List.replicate 200 'a'] =
      List.replicate 200 'a' := rfl
  have hpy : pySplit (List.replicate 1000 'a') =
      [List.replicate 1000 'a'] := by
    have h := pySplit_join [List.replicate 1000 'a'] hsingleW
    rwa [hjoinW] at h
  have hnorm : normalize (List.replicate 1000 'a') =
      List.replicate 1000 'a' := by
    unfold normalize
    rw [hpy]
    rfl
  have hsents : sentenceSplit (List.replicate 1000 'a') =
      [List.replicate 1000 'a'] := by
    have h := sentenceSplit_join [List.replicate 1000 'a']
      (List.cons_ne_nil _ _) hsingleW
    rw [hjoinW] at h
    rw [h]
    rfl
  have hstripW : strip (List.replicate 1000 'a') =
      List.replicate 1000 'a' := by
    have h := strip_join [List.replicate 1000 'a'] hsingleW
    rwa [hjoinW] at h
  have hsplitChar : splitChar (List.replicate 1000 'a') =
      [List.replicate 1000 'a'] := by
    have h := splitChar_join [List.replicate 1000 'a']
      (List.cons_ne_nil _ _) hsingleW
    rwa [hjoinW] at h
  have hstripP : strip (List.replicate 200 'a' ++ [' ']) =
      List.replicate 200 'a' := by
    rw [strip_append_space]
    have h := strip_join [List.replicate 200 'a'] hsingleP
    rwa [hjoinP] at h
  have hs1 : subStep 200 (([] : List (List Char)), ([] : List Char))
      (List.replicate 200 'a') =
      ([], List.replicate 200 'a' ++ [' ']) := by
    unfold subStep
    dsimp only
    rw [if_neg (by
      simp only [List.length_nil, List.length_replicate]
      norm_num)]
    rw [if_pos rfl]
  have hs2 : ∀ cs : List (List Char),
      subStep 200 (cs, List.replicate 200 'a' ++ [' '])
        (List.replicate 200 'a') =
        (cs ++ [List.replicate 200 'a'],
          List.replicate 200 'a' ++ [' ']) := by
    intro cs
    unfold subStep
    dsimp only
    rw [if_neg (by
      simp only [List.length_append, List.length_replicate,
        List.length_cons, List.length_nil]
      norm_num)]
    rw [if_neg hPspne, hstripP]
  have hcond1 : ¬ (strip (List.replicate 1000 'a') = []) := by
    rw [hstripW]
    exact hrepWne
  have hcond2 : ¬ (([] : List Char).length +
      (List.replicate 1000 'a').length + 1 ≤ 200) := by
    simp only [List.length_nil, List.length_replicate]
    norm_num
  have hcnil : (([] : List Char) = []) := rfl
  have hcond3 : (List.replicate 1000 'a').length > 200 := by
    rw [List.length_replicate]
    norm_num
  unfold split_text
  rw [if_neg hrepWne]
  dsimp only
  rw [hnorm, hsents]
  rw [List.foldl_cons, List.foldl_nil]
  unfold sentStep
  dsimp only
  rw [if_neg hcond1]
  rw [if_neg hcond2]
  rw [if_pos hcnil]
  rw [if_pos hcond3]
  rw [hsplitChar]
  rw [List.foldl_cons, List.foldl_nil]
  unfold wordStep
  rw [if_pos hcond3]
  rw [slices_thousand]
  rw [show List.replicate 5 (List.replicate 200 'a') =
    [List.replicate 200 'a', List.replicate 200 'a', List.replicate 200 'a',
      List.replicate 200 'a', List.replicate 200 'a'] from rfl]
  rw [List.foldl_cons, List.foldl_cons, List.foldl_cons, List.foldl_cons,
    List.foldl_cons, List.foldl_nil]
  rw [hs1, hs2, hs2, hs2, hs2]
  rw [if_neg hPspne, hstripP]
  rfl

/-- C5: every chunk returned by `split_text` (with the limit 200 used
by the worker) has at most 200 characters; and on an input consisting
of a single word of 1000 identical characters `split_text` returns
exactly five chunks of 200 characters each. -/
theorem C5_chunk_length :
    (∀ (text : List Char) (c : List Char), c ∈ split_text text 200 →
      c.length ≤ 200) ∧
    split_text (List.replicate 1000 'a') 200 =
      List.replicate 5 (List.replicate 200 'a') := by
  refine ⟨?_, split_text_thousand⟩
  intro text c hc
  unfold split_text at hc
  split_ifs at hc with h
  · simp at hc
  · dsimp only at hc
    have hbound := foldl_sentStep_bound 200
      (sentenceSplit (normalize text)) ([], []) ⟨by simp, Or.inl rfl⟩
    rcases hst : (sentenceSplit (normalize text)).foldl (sentStep 200)
        ([], []) with ⟨cs, cur⟩
    rw [hst] at hc
    rw [hst] at hbound
    obtain ⟨hcs, hcur⟩ := hbound
    dsimp only at hc hcs hcur
    by_cases hc0 : cur = []
    · rw [if_pos hc0] at hc
      exact hcs c hc
    · rw [if_neg hc0] at hc
      rcases List.mem_append.mp hc with h1 | h2
      · exact hcs c h1
      · rw [List.mem_singleton] at h2
        subst h2
        rcases hcur with h0 | ⟨htr, hle⟩
        · exact absurd h0 hc0
        · exact strip_trailing_le 200 cur htr hle

/-- C5 witness: the first 200-character chunk of the 1000-character
word is indeed a chunk, and is within the limit. -/
theorem C5_chunk_length_witness :
    (List.replicate 200 'a') ∈ split_text (List.replicate 1000 'a') 200 ∧
      (List.replicate 200 'a').length ≤ 200 := by
  have hmem : (List.replicate 200 'a') ∈
      split_text (List.replicate 1000 'a') 200 := by
    rw [split_text_thousand]
    simp
  exact ⟨hmem, (C5_chunk_length).1 (List.replicate 1000 'a')
    (List.replicate 200 'a') hmem⟩

end LocalTTS
